import Mathlib

/-!
Verification of the nrpm dependency-resolution and integrity core.

The Rust sources are shallowly embedded:
* bytes are `Nat` values (0..255);
* a `blake3::Hasher` is modelled by the transcript of bytes fed to it:
  `finalize` returns the transcript.  Equal transcripts give equal real
  digests, and the model idealizes blake3 as collision-free, so distinct
  transcripts stand for distinct digests;
* fallible Rust functions returning `anyhow::Result` become `Except String`
  (or a structured error inductive), carrying the data of the formatted
  error message.
-/

namespace Nrpm

/-- A byte, as fed to hashers and stored in files. -/
abbrev Byte := Nat

/-- One `std::path::Component` of a tar entry's path: `Normal` carries the
component's bytes; every other component kind (`RootDir`, `ParentDir`,
`CurDir`, `Prefix`) is collapsed into `special`, which is all the Rust code
distinguishes (`nrpm_tarball::hash` / `common::hash_tarball` match only on
`Component::Normal`). -/
inductive PComp
  | normal (bytes : List Byte)
  | special
deriving DecidableEq, Repr

/-- The tar header entry type, as far as `hash`/`hash_tarball` inspect it:
`EntryType::Regular`, `EntryType::Directory`, and everything else. -/
inductive EType
  | regular
  | directory
  | other
deriving DecidableEq, Repr

/-- One entry of a tar archive: header entry type, path components, and the
file's byte content. -/
structure TarEntry where
  etype : EType
  path : List PComp
  content : List Byte
deriving DecidableEq, Repr

/-- State machine for UTF-8 validation: `none` when at a code-point
boundary, `some (lo, hi, n)` when the next byte must lie in `[lo, hi]`
and `n` further continuation bytes (each in `[0x80, 0xBF]`) follow it. -/
def utf8Aux : Option (Byte × Byte × Nat) → List Byte → Bool
  | none, [] => true
  | some _, [] => false
  | none, b :: r =>
    if b < 0x80 then utf8Aux none r
    else if b < 0xC2 then false
    else if b < 0xE0 then utf8Aux (some (0x80, 0xBF, 0)) r
    else if b = 0xE0 then utf8Aux (some (0xA0, 0xBF, 1)) r
    else if b = 0xED then utf8Aux (some (0x80, 0x9F, 1)) r
    else if b < 0xF0 then utf8Aux (some (0x80, 0xBF, 1)) r
    else if b = 0xF0 then utf8Aux (some (0x90, 0xBF, 2)) r
    else if b < 0xF4 then utf8Aux (some (0x80, 0xBF, 2)) r
    else if b = 0xF4 then utf8Aux (some (0x80, 0x8F, 2)) r
    else false
  | some (lo, hi, n), b :: r =>
    if lo ≤ b && b ≤ hi then
      match n with
      | 0 => utf8Aux none r
      | m + 1 => utf8Aux (some (0x80, 0xBF, m)) r
    else false

/-- UTF-8 validity of a byte sequence, as checked by Rust's
`Read::read_to_string` (which fails on invalid UTF-8): no
continuation/overlong lead bytes, surrogate range excluded at `0xED`,
code points above `U+10FFFF` excluded at `0xF4`. -/
def validUtf8 (l : List Byte) : Bool :=
  utf8Aux none l

instance {ε α : Type} [DecidableEq ε] [DecidableEq α] :
    DecidableEq (Except ε α) := fun a b =>
  match a, b with
  | .ok x, .ok y =>
    if h : x = y then .isTrue (by rw [h]) else .isFalse (by simp [h])
  | .error x, .error y =>
    if h : x = y then .isTrue (by rw [h]) else .isFalse (by simp [h])
  | .ok _, .error _ => .isFalse (by simp)
  | .error _, .ok _ => .isFalse (by simp)

/-- The key of the `BTreeMap<PathBuf, blake3::Hash>`: a path all of whose
components are `Normal`, as the list of the components' bytes.  `PathBuf`
ordering (component-wise, components byte-wise) is the lexicographic order
that Mathlib provides on `List (List Byte)`. -/
abbrev FKey := List (List Byte)

/-- Extract the `Normal` components of an entry path, failing on the first
non-normal component, exactly as the component loop of
`nrpm_tarball::hash` / `common::hash_tarball` does. -/
def normalComps : List PComp → Except String FKey
  | [] => .ok []
  | .normal bs :: rest => (normalComps rest).map (bs :: ·)
  | .special :: _ => .error "Non-normal path component detected in tarball"

/-- `BTreeMap::insert` on an association list kept sorted by key:
an existing binding of the same key is replaced, otherwise the pair is
placed at its ordered position. -/
def insertSorted (k : FKey) (v : List Byte) :
    List (FKey × List Byte) → List (FKey × List Byte)
  | [] => [(k, v)]
  | (k1, v1) :: rest =>
    if k = k1 then (k, v) :: rest
    else if k < k1 then (k, v) :: (k1, v1) :: rest
    else (k1, v1) :: insertSorted k v rest

/-- Processing of one archive entry by the loop of `hash`/`hash_tarball`:
a regular file has its path components checked (all `Normal`), its content
read as UTF-8 (`read_to_string`), and its per-file hasher transcript
(components' bytes then content bytes, as fed by `hasher.update`)
inserted into the ordered map; a directory is skipped; any other entry
type aborts. -/
def hashStep (m : List (FKey × List Byte)) (e : TarEntry) :
    Except String (List (FKey × List Byte)) :=
  match e.etype with
  | .regular =>
    match normalComps e.path with
    | .error msg => .error msg
    | .ok comps =>
      if validUtf8 e.content then
        .ok (insertSorted comps (comps.flatten ++ e.content) m)
      else .error "stream did not contain valid UTF-8"
  | .directory => .ok m
  | .other =>
    .error "Irregular entry detected in tar archive. Only directories and files are allowed in package tarballs!"

/-- `nrpm_tarball::hash` (identically `common::checksum::hash_tarball`):
fold the entry loop over the archive, then feed the per-file digests in
sorted path order into the final hasher.  The final digest is determined
by (and, in the collision-free idealization, determines) the ordered list
of per-file digests, which is what the model returns. -/
def hashTarball (entries : List TarEntry) : Except String (List (List Byte)) :=
  (entries.foldlM hashStep []).map (fun m => m.map Prod.snd)

/-- The per-file (key, transcript) pair an entry contributes, if it is a
well-formed regular file; `none` for directories and ill-formed or
irregular entries. -/
def regPair (e : TarEntry) : Option (FKey × List Byte) :=
  match e.etype with
  | .regular =>
    match normalComps e.path with
    | .ok comps =>
      if validUtf8 e.content then some (comps, comps.flatten ++ e.content)
      else none
    | .error _ => none
  | _ => none

/-- An entry the hashing loop accepts: a well-formed regular file or a
directory. -/
def entryWf (e : TarEntry) : Bool :=
  match e.etype with
  | .regular => (regPair e).isSome
  | .directory => true
  | .other => false

/-- One step of the pure (error-free) version of the hashing loop: apply
the entry's contribution to the ordered map. -/
def applyPair (m : List (FKey × List Byte)) (e : TarEntry) :
    List (FKey × List Byte) :=
  match regPair e with
  | some (k, v) => insertSorted k v m
  | none => m

/-- Strict key order on map pairs. -/
def pairLt (a b : FKey × List Byte) : Prop :=
  a.1 < b.1

theorem hashStep_ok_of_wf {e : TarEntry} (m : List (FKey × List Byte))
    (h : entryWf e = true) : hashStep m e = .ok (applyPair m e) := by
  cases e with
  | mk t p c =>
    cases t with
    | regular =>
      simp only [entryWf, regPair] at h ⊢
      cases hc : normalComps p with
      | error msg => simp [hc] at h
      | ok comps =>
        simp only [hc] at h
        by_cases hv : validUtf8 c = true
        · simp [hashStep, applyPair, regPair, hc, hv]
        · simp [hv] at h
    | directory => simp [hashStep, applyPair, regPair]
    | other => simp [entryWf] at h

theorem hashStep_ok_inv {e : TarEntry} {m m' : List (FKey × List Byte)}
    (h : hashStep m e = .ok m') : entryWf e = true ∧ m' = applyPair m e := by
  cases e with
  | mk t p c =>
    cases t with
    | regular =>
      simp only [hashStep] at h
      cases hc : normalComps p with
      | error msg => simp [hc] at h
      | ok comps =>
        simp only [hc] at h
        by_cases hv : validUtf8 c = true
        · simp only [hv, if_true] at h
          refine ⟨?_, ?_⟩
          · simp [entryWf, regPair, hc, hv]
          · simp [applyPair, regPair, hc, hv]
            exact (Except.ok.injEq _ _ ▸ h).symm
        · simp [hv] at h
    | directory =>
      simp only [hashStep] at h
      exact ⟨rfl, by simpa [applyPair, regPair] using h.symm⟩
    | other => simp [hashStep] at h

theorem foldlM_hashStep_ok_iff (l : List TarEntry)
    (m0 m : List (FKey × List Byte)) :
    l.foldlM hashStep m0 = .ok m ↔
      (∀ e ∈ l, entryWf e = true) ∧ m = l.foldl applyPair m0 := by
  induction l generalizing m0 with
  | nil =>
    simp [List.foldlM, List.foldl, pure, Except.pure]
    exact comm
  | cons e rest ih =>
    simp only [List.foldlM, List.foldl]
    cases hs : hashStep m0 e with
    | error msg =>
      simp only [hs, bind, Except.bind]
      constructor
      · intro h; exact absurd h (by simp)
      · rintro ⟨hwf, -⟩
        have := hashStep_ok_of_wf m0 (hwf e (by simp))
        rw [this] at hs
        simp at hs
    | ok m1 =>
      obtain ⟨hwf1, hm1⟩ := hashStep_ok_inv hs
      simp only [hs, bind, Except.bind]
      rw [ih m1, hm1]
      constructor
      · rintro ⟨hwf, hm⟩
        exact ⟨fun x hx => by
          rcases List.mem_cons.mp hx with h | h
          · exact h ▸ hwf1
          · exact hwf x h, hm⟩
      · rintro ⟨hwf, hm⟩
        exact ⟨fun x hx => hwf x (List.mem_cons_of_mem _ hx), hm⟩

theorem hashTarball_ok_iff (l : List TarEntry) (d : List (List Byte)) :
    hashTarball l = .ok d ↔
      (∀ e ∈ l, entryWf e = true) ∧
        d = (l.foldl applyPair []).map Prod.snd := by
  unfold hashTarball
  cases hf : l.foldlM hashStep [] with
  | error msg =>
    simp only [Except.map]
    constructor
    · intro h; exact absurd h (by simp)
    · rintro ⟨hwf, -⟩
      have := (foldlM_hashStep_ok_iff l [] (l.foldl applyPair [])).mpr ⟨hwf, rfl⟩
      rw [this] at hf
      simp at hf
  | ok m =>
    obtain ⟨hwf, hm⟩ := (foldlM_hashStep_ok_iff l [] m).mp hf
    simp only [Except.map, Except.ok.injEq]
    constructor
    · intro h
      exact ⟨hwf, by rw [← h, hm]⟩
    · rintro ⟨-, hd⟩
      rw [hd, hm]

theorem mem_insertSorted {x : FKey × List Byte} (k : FKey) (v : List Byte)
    (m : List (FKey × List Byte)) (h : x ∈ insertSorted k v m) :
    x = (k, v) ∨ x ∈ m := by
  induction m with
  | nil => simpa [insertSorted] using h
  | cons p rest ih =>
    obtain ⟨k1, v1⟩ := p
    simp only [insertSorted] at h
    by_cases he : k = k1
    · rw [if_pos he] at h
      rcases List.mem_cons.mp h with h | h
      · exact Or.inl h
      · exact Or.inr (List.mem_cons_of_mem _ h)
    · rw [if_neg he] at h
      by_cases hlt : k < k1
      · rw [if_pos hlt] at h
        rcases List.mem_cons.mp h with h | h
        · exact Or.inl h
        · exact Or.inr h
      · rw [if_neg hlt] at h
        rcases List.mem_cons.mp h with h | h
        · exact Or.inr (h ▸ List.mem_cons_self _ _)
        · rcases ih h with h | h
          · exact Or.inl h
          · exact Or.inr (List.mem_cons_of_mem _ h)

theorem insertSorted_perm (k : FKey) (v : List Byte)
    (m : List (FKey × List Byte)) (h : k ∉ m.map Prod.fst) :
    (insertSorted k v m).Perm ((k, v) :: m) := by
  induction m with
  | nil => exact List.Perm.refl _
  | cons p rest ih =>
    obtain ⟨k1, v1⟩ := p
    simp only [List.map_cons, List.mem_cons] at h
    push_neg at h
    obtain ⟨hne, hrest⟩ := h
    simp only [insertSorted]
    rw [if_neg hne]
    by_cases hlt : k < k1
    · rw [if_pos hlt]
    · rw [if_neg hlt]
      exact ((ih hrest).cons (k1, v1)).trans (List.Perm.swap (k, v) (k1, v1) rest)

theorem insertSorted_sorted (k : FKey) (v : List Byte)
    (m : List (FKey × List Byte)) (h : m.Pairwise pairLt) :
    (insertSorted k v m).Pairwise pairLt := by
  induction m with
  | nil => simp [insertSorted]
  | cons p rest ih =>
    obtain ⟨k1, v1⟩ := p
    rw [List.pairwise_cons] at h
    obtain ⟨h1, h2⟩ := h
    simp only [insertSorted]
    by_cases he : k = k1
    · rw [if_pos he]
      rw [List.pairwise_cons]
      exact ⟨fun x hx => by
        have := h1 x hx
        simpa [pairLt, he] using this, h2⟩
    · rw [if_neg he]
      by_cases hlt : k < k1
      · rw [if_pos hlt]
        rw [List.pairwise_cons]
        refine ⟨fun x hx => ?_, List.pairwise_cons.mpr ⟨h1, h2⟩⟩
        rcases List.mem_cons.mp hx with h | h
        · rw [h]; exact hlt
        · exact lt_trans hlt (h1 x h)
      · rw [if_neg hlt]
        have hgt : k1 < k := (lt_or_gt_of_ne (Ne.symm he)).resolve_right hlt
        rw [List.pairwise_cons]
        refine ⟨fun x hx => ?_, ih h2⟩
        rcases mem_insertSorted k v rest hx with h | h
        · rw [h]; exact hgt
        · exact h1 x h

theorem buildPure_perm (l : List TarEntry) (m0 : List (FKey × List Byte))
    (h : ((l.filterMap regPair).map Prod.fst ++ m0.map Prod.fst).Nodup) :
    (l.foldl applyPair m0).Perm (l.filterMap regPair ++ m0) := by
  induction l generalizing m0 with
  | nil => simp
  | cons e rest ih =>
    cases hre : regPair e with
    | none =>
      simp only [List.foldl, applyPair, hre]
      have hfm : (e :: rest).filterMap regPair = rest.filterMap regPair := by
        simp [List.filterMap_cons, hre]
      rw [hfm] at h ⊢
      exact ih m0 h
    | some kv =>
      obtain ⟨k, v⟩ := kv
      have hfm : (e :: rest).filterMap regPair =
          (k, v) :: rest.filterMap regPair := by
        simp [List.filterMap_cons, hre]
      rw [hfm] at h ⊢
      simp only [List.map_cons, List.cons_append, List.nodup_cons] at h
      obtain ⟨hknot, hnd⟩ := h
      have hknotm0 : k ∉ m0.map Prod.fst := fun hx =>
        hknot (List.mem_append_right _ hx)
      have hperm0 : (insertSorted k v m0).Perm ((k, v) :: m0) :=
        insertSorted_perm k v m0 hknotm0
      have hkeys : ((insertSorted k v m0).map Prod.fst).Perm
          (k :: m0.map Prod.fst) := by
        simpa using hperm0.map Prod.fst
      have hnd' : ((rest.filterMap regPair).map Prod.fst ++
          (insertSorted k v m0).map Prod.fst).Nodup := by
        have h1 : ((rest.filterMap regPair).map Prod.fst ++
            (insertSorted k v m0).map Prod.fst).Perm
            (k :: ((rest.filterMap regPair).map Prod.fst ++
              m0.map Prod.fst)) :=
          ((List.Perm.refl _).append hkeys).trans List.perm_middle
        exact h1.symm.nodup (List.nodup_cons.mpr ⟨hknot, hnd⟩)
      simp only [List.foldl, applyPair, hre]
      exact ((ih _ hnd').trans
        ((List.Perm.refl _).append hperm0)).trans List.perm_middle

theorem buildPure_sorted (l : List TarEntry) (m0 : List (FKey × List Byte))
    (h : m0.Pairwise pairLt) : (l.foldl applyPair m0).Pairwise pairLt := by
  induction l generalizing m0 with
  | nil => exact h
  | cons e rest ih =>
    simp only [List.foldl]
    apply ih
    unfold applyPair
    cases regPair e with
    | none => exact h
    | some kv => exact insertSorted_sorted kv.1 kv.2 m0 h

theorem regPair_none_of_bad_utf8 {e : TarEntry}
    (hbad : validUtf8 e.content = false) : regPair e = none := by
  unfold regPair
  cases e.etype with
  | regular =>
    cases normalComps e.path with
    | ok comps => simp [hbad]
    | error msg => rfl
  | directory => rfl
  | other => rfl

theorem foldlM_hashStep_filter_dirs (l : List TarEntry)
    (m0 : List (FKey × List Byte)) :
    (l.filter (fun e => decide (e.etype ≠ EType.directory))).foldlM
        hashStep m0 = l.foldlM hashStep m0 := by
  induction l generalizing m0 with
  | nil => rfl
  | cons e rest ih =>
    by_cases hd : e.etype = EType.directory
    · rw [List.filter_cons_of_neg (by simp [hd])]
      have hs : hashStep m0 e = .ok m0 := by
        unfold hashStep
        rw [hd]
      simp only [List.foldlM, hs, bind, Except.bind]
      exact ih m0
    · rw [List.filter_cons_of_pos (by simp [hd])]
      simp only [List.foldlM, bind, Except.bind]
      cases hs : hashStep m0 e with
      | error msg => rfl
      | ok m1 => exact ih m1

/-- C2 counterexample: the claim quantifies over every fixed set of
(relative path, byte content) pairs; for a set holding two pairs with the
same path and different contents (which a tar archive can contain, and
which `BTreeMap::insert` resolves by letting the later entry overwrite the
earlier), the two enumeration orders produce different final digests. -/
theorem c2_order_counterexample :
    ([⟨EType.regular, [PComp.normal [48]], [49]⟩,
      ⟨EType.regular, [PComp.normal [48]], [50]⟩] : List TarEntry).Perm
      [⟨EType.regular, [PComp.normal [48]], [50]⟩,
       ⟨EType.regular, [PComp.normal [48]], [49]⟩]
    ∧ hashTarball
        [⟨EType.regular, [PComp.normal [48]], [49]⟩,
         ⟨EType.regular, [PComp.normal [48]], [50]⟩] ≠
      hashTarball
        [⟨EType.regular, [PComp.normal [48]], [50]⟩,
         ⟨EType.regular, [PComp.normal [48]], [49]⟩] := by
  constructor
  · exact List.Perm.swap _ _ _
  · intro h
    rw [show hashTarball
        [⟨EType.regular, [PComp.normal [48]], [49]⟩,
         ⟨EType.regular, [PComp.normal [48]], [50]⟩] = .ok [[48, 50]] from rfl,
      show hashTarball
        [⟨EType.regular, [PComp.normal [48]], [50]⟩,
         ⟨EType.regular, [PComp.normal [48]], [49]⟩] = .ok [[48, 49]] from rfl]
      at h
    simp at h

/-- C2 (amended): for entries whose (regular-file) paths are pairwise
distinct — as they are whenever the entries come from enumerating a
filesystem tree — the content hash is independent of enumeration order:
any two permutations of the same entries that hash successfully produce
the same final digest. -/
theorem c2_hash_order_independent (l1 l2 : List TarEntry)
    (hnd : ((l1.filterMap regPair).map Prod.fst).Nodup)
    (hp : l1.Perm l2)
    (d1 d2 : List (List Byte))
    (h1 : hashTarball l1 = .ok d1) (h2 : hashTarball l2 = .ok d2) :
    d1 = d2 := by
  haveI : IsAntisymm (FKey × List Byte) pairLt :=
    ⟨fun a b hab hba => absurd hba (lt_asymm hab)⟩
  obtain ⟨hwf1, hd1⟩ := (hashTarball_ok_iff l1 d1).mp h1
  obtain ⟨hwf2, hd2⟩ := (hashTarball_ok_iff l2 d2).mp h2
  have hpf : (l1.filterMap regPair).Perm (l2.filterMap regPair) :=
    hp.filterMap _
  have hnd2 : ((l2.filterMap regPair).map Prod.fst).Nodup :=
    (hpf.map Prod.fst).nodup hnd
  have p1 : (l1.foldl applyPair []).Perm (l1.filterMap regPair) := by
    simpa using buildPure_perm l1 [] (by simpa using hnd)
  have p2 : (l2.foldl applyPair []).Perm (l2.filterMap regPair) := by
    simpa using buildPure_perm l2 [] (by simpa using hnd2)
  have s1 := buildPure_sorted l1 [] (by simp)
  have s2 := buildPure_sorted l2 [] (by simp)
  have hfold : l1.foldl applyPair [] = l2.foldl applyPair [] :=
    List.eq_of_perm_of_sorted ((p1.trans hpf).trans p2.symm) s1 s2
  rw [hd1, hd2, hfold]

/-- Witness for the amended C2 theorem at a concrete pair of permuted
entry lists with distinct paths. -/
theorem c2_hash_order_independent_witness :
    ([[48, 0], [49, 0]] : List (List Byte)) = [[48, 0], [49, 0]] :=
  c2_hash_order_independent
    [⟨EType.regular, [PComp.normal [49]], [0]⟩,
     ⟨EType.regular, [PComp.normal [48]], [0]⟩]
    [⟨EType.regular, [PComp.normal [48]], [0]⟩,
     ⟨EType.regular, [PComp.normal [49]], [0]⟩]
    (by decide) (List.Perm.swap _ _ _) [[48, 0], [49, 0]] [[48, 0], [49, 0]]
    (by decide) (by decide)

/-- C8: when computing a Content Hash, every regular-file entry (with
pairwise-distinct paths) contributes its per-file digest to the final
digest, directory entries contribute nothing (removing them never changes
the result), and the presence of any non-regular, non-directory entry
makes the whole operation return an error instead of a digest. -/
theorem c8_entry_type_handling (l : List TarEntry) :
    ((∃ e ∈ l, e.etype = EType.other) → ∃ msg, hashTarball l = .error msg)
    ∧ hashTarball (l.filter (fun e => decide (e.etype ≠ EType.directory)))
        = hashTarball l
    ∧ (∀ d, hashTarball l = .ok d →
        ((l.filterMap regPair).map Prod.fst).Nodup →
        ∀ e ∈ l, e.etype = EType.regular →
          ∃ k v, regPair e = some (k, v) ∧ v ∈ d) := by
  refine ⟨?_, ?_, ?_⟩
  · rintro ⟨e, he, hother⟩
    cases hres : hashTarball l with
    | error msg => exact ⟨msg, rfl⟩
    | ok d =>
      obtain ⟨hwf, -⟩ := (hashTarball_ok_iff l d).mp hres
      have hwfe := hwf e he
      simp [entryWf, hother] at hwfe
  · unfold hashTarball
    rw [foldlM_hashStep_filter_dirs]
  · intro d hok hnd e he hreg
    obtain ⟨hwf, hd⟩ := (hashTarball_ok_iff l d).mp hok
    have hwfe := hwf e he
    simp only [entryWf, hreg] at hwfe
    obtain ⟨⟨k, v⟩, hkv⟩ := Option.isSome_iff_exists.mp hwfe
    refine ⟨k, v, hkv, ?_⟩
    have hmem : (k, v) ∈ l.filterMap regPair :=
      List.mem_filterMap.mpr ⟨e, he, hkv⟩
    have p1 : (l.foldl applyPair []).Perm (l.filterMap regPair) := by
      simpa using buildPure_perm l [] (by simpa using hnd)
    have hmem2 : (k, v) ∈ l.foldl applyPair [] := (p1.mem_iff).mpr hmem
    rw [hd]
    exact List.mem_map.mpr ⟨(k, v), hmem2, rfl⟩

/-- Witness for C8 at concrete inputs: a lone irregular entry makes the
hash fail, and a regular file's digest appears in the final digest of a
successful hash. -/
theorem c8_entry_type_handling_witness :
    (∃ msg, hashTarball [⟨EType.other, [], []⟩] = .error msg)
    ∧ (∃ k v,
        regPair ⟨EType.regular, [PComp.normal [48]], [49]⟩ = some (k, v)
        ∧ v ∈ [[48, 49]]) :=
  ⟨(c8_entry_type_handling [⟨EType.other, [], []⟩]).1
      ⟨⟨EType.other, [], []⟩, by simp, rfl⟩,
   (c8_entry_type_handling
      [⟨EType.regular, [PComp.normal [48]], [49]⟩]).2.2
     [[48, 49]] (by decide) (by decide)
     ⟨EType.regular, [PComp.normal [48]], [49]⟩ (by simp) rfl⟩

/-- C10: the content-hash operation only produces a digest when every
hashed regular file's bytes are valid UTF-8 (a consequence of reading each
file with `read_to_string`); an archive containing a regular file with
non-UTF-8 content makes it return an error instead. -/
theorem c10_utf8_required (l : List TarEntry) :
    ((∃ e ∈ l, e.etype = EType.regular ∧ validUtf8 e.content = false) →
        ∃ msg, hashTarball l = .error msg)
    ∧ (∀ d, hashTarball l = .ok d →
        ∀ e ∈ l, e.etype = EType.regular → validUtf8 e.content = true) := by
  constructor
  · rintro ⟨e, he, hreg, hbad⟩
    cases hres : hashTarball l with
    | error msg => exact ⟨msg, rfl⟩
    | ok d =>
      obtain ⟨hwf, -⟩ := (hashTarball_ok_iff l d).mp hres
      have hwfe := hwf e he
      simp only [entryWf, hreg] at hwfe
      rw [regPair_none_of_bad_utf8 hbad] at hwfe
      simp at hwfe
  · intro d hok e he hreg
    obtain ⟨hwf, -⟩ := (hashTarball_ok_iff l d).mp hok
    have hwfe := hwf e he
    simp only [entryWf, hreg] at hwfe
    by_contra hv
    rw [regPair_none_of_bad_utf8 (Bool.not_eq_true _ ▸ hv)] at hwfe
    simp at hwfe

/-- Witness for C10: a single regular file whose content is the invalid
UTF-8 byte 0xFF makes the hash fail. -/
theorem c10_utf8_required_witness :
    ∃ msg, hashTarball [⟨EType.regular, [PComp.normal [97]], [255]⟩]
      = .error msg :=
  (c10_utf8_required [⟨EType.regular, [PComp.normal [97]], [255]⟩]).1
    ⟨⟨EType.regular, [PComp.normal [97]], [255]⟩, by simp, rfl, by decide⟩

/-- A TOML value, in the shapes the lockfile reader and writer exchange
(`toml::Value::Integer/String/Array/Table`).  `toml::from_str` and
`toml::to_string_pretty` are external-library inverses; the model works at
the level of the structured value those functions serialize. -/
inductive Toml
  | int (i : Int)
  | str (s : String)
  | arr (vs : List Toml)
  | table (kvs : List (String × Toml))

/-- `cli::lockfile::LockEntry`. -/
structure LockEntry where
  git : String
  tag : String
  blake3 : String
deriving DecidableEq, Repr

/-- `LockEntry::identifier`: `format!("{}@{}", git, tag)`. -/
def LockEntry.identifier (e : LockEntry) : String :=
  e.git ++ "@" ++ e.tag

/-- `cli::lockfile::Lockfile`.  The `HashMap<String, LockEntry>` is
modelled as an association list with unique keys; `HashMap` iteration
order is arbitrary, which the model fixes to list order. -/
structure Lockfile where
  version : Int
  packages_cache : List (String × LockEntry)
deriving DecidableEq, Repr

/-- `HashMap::insert`: replace the binding in place, or append. -/
def hmInsert {α : Type} : List (String × α) → String → α → List (String × α)
  | [], k, v => [(k, v)]
  | p :: rest, k, v =>
    if p.1 = k then (k, v) :: rest else p :: hmInsert rest k v

/-- `HashMap::get`. -/
def hmGet {α : Type} : List (String × α) → String → Option α
  | [], _ => none
  | p :: rest, k => if p.1 = k then some p.2 else hmGet rest k

/-- `Lockfile::new`. -/
def Lockfile.new : Lockfile :=
  ⟨0, []⟩

/-- serde deserialization of a `LockEntry` from a TOML value: a table
with string fields `git`, `tag`, `blake3` (unknown fields ignored,
missing fields an error). -/
def lockEntryOfToml : Toml → Except String LockEntry
  | .table kvs =>
    match hmGet kvs "git", hmGet kvs "tag", hmGet kvs "blake3" with
    | some (.str g), some (.str t), some (.str b) => .ok ⟨g, t, b⟩
    | _, _, _ => .error "failed to parse lockfile package entry"
  | _ => .error "failed to parse lockfile package entry"

/-- serde serialization of a `LockEntry` (`Table::try_from`). -/
def LockEntry.toToml (e : LockEntry) : Toml :=
  .table [("git", .str e.git), ("tag", .str e.tag), ("blake3", .str e.blake3)]

/-- `Lockfile::load_or_init`: `none` stands for an absent file (yielding
`Lockfile::new`); otherwise the file's parsed top-level table is read:
`packages` defaults to an empty array and must be an array of entry
tables, the entry cache keys each entry by its identifier keeping the
last duplicate, and `version` must be present, an integer, and 0. -/
def Lockfile.load_or_init (file : Option (List (String × Toml))) :
    Except String Lockfile :=
  match file with
  | none => .ok Lockfile.new
  | some s =>
    match (hmGet s "packages").getD (.arr []) with
    | .arr packages =>
      match packages.mapM lockEntryOfToml with
      | .error msg => .error msg
      | .ok entries =>
        let packages_cache :=
          entries.foldl (fun m e => hmInsert m e.identifier e) []
        match hmGet s "version" with
        | none => .error "malformed lockfile, does not contain version"
        | some (.int version) =>
          if version ≠ 0 then
            .error "bad version number, only version 0 is supported by this version of nrpm"
          else .ok ⟨version, packages_cache⟩
        | some _ => .error "malformed lockfile, version must be an integer"
    | _ => .error "malformed lockfile, packages must be an array"

/-- `Lockfile::save`: serialize to the top-level table.  Note the code
writes `version` as the literal 0, not `self.version`. -/
def Lockfile.save (lf : Lockfile) : List (String × Toml) :=
  [("version", .int 0),
   ("packages", .arr (lf.packages_cache.map (fun p => p.2.toToml)))]

/-- `Lockfile::entry`. -/
def Lockfile.entry (lf : Lockfile) (identifier : String) : Option LockEntry :=
  hmGet lf.packages_cache identifier

/-- `Lockfile::entries` (the cache's values). -/
def Lockfile.entries (lf : Lockfile) : List LockEntry :=
  lf.packages_cache.map Prod.snd

/-- `Lockfile::remove`. -/
def Lockfile.remove (lf : Lockfile) (identifier : String) : Lockfile :=
  ⟨lf.version, lf.packages_cache.filter (fun p => decide (p.1 ≠ identifier))⟩

theorem hmInsert_append {α : Type} (m : List (String × α)) (k : String)
    (v : α) (h : k ∉ m.map Prod.fst) : hmInsert m k v = m ++ [(k, v)] := by
  induction m with
  | nil => rfl
  | cons p rest ih =>
    simp only [List.map_cons, List.mem_cons] at h
    push_neg at h
    simp only [hmInsert]
    rw [if_neg (fun he => h.1 he.symm), ih h.2]
    rfl

theorem hmGet_hmInsert {α : Type} (m : List (String × α)) (k k' : String)
    (v : α) : hmGet (hmInsert m k v) k' =
      if k' = k then some v else hmGet m k' := by
  induction m with
  | nil =>
    simp only [hmInsert, hmGet]
    by_cases h : k = k'
    · subst h; simp
    · rw [if_neg h, if_neg (fun he => h he.symm)]
  | cons p rest ih =>
    simp only [hmInsert]
    by_cases h1 : p.1 = k
    · rw [if_pos h1]
      simp only [hmGet]
      by_cases h2 : k' = k
      · subst h2; simp
      · rw [if_neg (fun he => h2 he.symm), if_neg h2,
          if_neg (fun he => h2 (he.symm.trans h1))]
    · rw [if_neg h1]
      simp only [hmGet]
      by_cases h2 : p.1 = k'
      · rw [if_pos h2, if_neg (fun he : k' = k => h1 (h2.trans he)),
          if_pos h2]
      · simp only [if_neg h2]
        exact ih

theorem hmGet_some_mem {α : Type} {m : List (String × α)} {k : String}
    {v : α} (h : hmGet m k = some v) : (k, v) ∈ m := by
  induction m with
  | nil => simp [hmGet] at h
  | cons p rest ih =>
    simp only [hmGet] at h
    by_cases h1 : p.1 = k
    · rw [if_pos h1] at h
      obtain ⟨a, b⟩ := p
      have hb : b = v := by simpa using h
      have ha : a = k := h1
      subst hb
      subst ha
      exact List.mem_cons_self _ _
    · rw [if_neg h1] at h
      exact List.mem_cons_of_mem _ (ih h)

theorem hmGet_keys_isSome {α : Type} (m : List (String × α)) (k : String) :
    (hmGet m k).isSome = true ↔ k ∈ m.map Prod.fst := by
  induction m with
  | nil => simp [hmGet]
  | cons p rest ih =>
    simp only [hmGet, List.map_cons, List.mem_cons]
    by_cases h1 : p.1 = k
    · rw [if_pos h1]
      simp [h1]
    · rw [if_neg h1]
      simp only [ih]
      constructor
      · exact Or.inr
      · rintro (h | h)
        · exact absurd h.symm h1
        · exact h

theorem mapM_lockEntryOfToml (entries : List LockEntry) :
    (entries.map LockEntry.toToml).mapM lockEntryOfToml = .ok entries := by
  induction entries with
  | nil => rfl
  | cons e rest ih =>
    obtain ⟨g, t, b⟩ := e
    simp only [List.map_cons, List.mapM_cons]
    rw [show lockEntryOfToml (LockEntry.toToml ⟨g, t, b⟩) = .ok ⟨g, t, b⟩
      from rfl]
    rw [ih]
    rfl

theorem rebuild_cache (cache : List (String × LockEntry))
    (m0 : List (String × LockEntry))
    (hwf : ∀ p ∈ cache, p.1 = p.2.identifier)
    (hnd : ((m0 ++ cache).map Prod.fst).Nodup) :
    (cache.map Prod.snd).foldl (fun m e => hmInsert m e.identifier e) m0 =
      m0 ++ cache := by
  induction cache generalizing m0 with
  | nil => simp
  | cons p rest ih =>
    obtain ⟨k, e⟩ := p
    have hk : k = e.identifier := hwf (k, e) (List.mem_cons_self _ _)
    have hknot : e.identifier ∉ m0.map Prod.fst := by
      intro hmem
      have := (List.nodup_append.mp (by simpa using hnd)).2.2
      exact this (hk ▸ hmem) (by simp [hk.symm])
    simp only [List.map_cons, List.foldl_cons]
    rw [hmInsert_append m0 e.identifier e hknot]
    have hnd' : (((m0 ++ [(e.identifier, e)]) ++ rest).map Prod.fst).Nodup := by
      have : (m0 ++ [(e.identifier, e)]) ++ rest = m0 ++ ((e.identifier, e) :: rest) := by
        simp
      rw [this]
      simpa [hk.symm] using hnd
    have := ih (m0 ++ [(e.identifier, e)])
      (fun q hq => hwf q (List.mem_cons_of_mem _ hq)) hnd'
    rw [this]
    simp [hk]

/-- C7: loading the file produced by saving a valid Lock Document yields
that document back: same version value and the same mapping from
Identifier to lock entry.  Valid means: version 0 (the only recognized
value), every cache binding keyed by its entry's identifier (as
`load_or_init` and `upsert` always key it), and unique keys. -/
theorem c7_lockfile_round_trip (lf : Lockfile)
    (hv : lf.version = 0)
    (hwf : ∀ p ∈ lf.packages_cache, p.1 = p.2.identifier)
    (hnd : (lf.packages_cache.map Prod.fst).Nodup) :
    Lockfile.load_or_init (some lf.save) = .ok lf := by
  obtain ⟨version, cache⟩ := lf
  simp only at hv hwf hnd
  subst hv
  have key : Lockfile.load_or_init (some (Lockfile.save ⟨0, cache⟩)) =
      .ok ⟨0, (cache.map Prod.snd).foldl
        (fun m e => hmInsert m e.identifier e) []⟩ := by
    unfold Lockfile.load_or_init Lockfile.save
    dsimp only
    rw [show hmGet [("version", Toml.int 0),
        ("packages", Toml.arr (cache.map (fun p => p.2.toToml)))] "packages" =
        some (Toml.arr (cache.map (fun p => p.2.toToml))) from rfl]
    dsimp only [Option.getD]
    rw [show (cache.map (fun p => p.2.toToml)) =
        (cache.map Prod.snd).map LockEntry.toToml from by simp [List.map_map]]
    rw [mapM_lockEntryOfToml]
    dsimp only
    rw [show hmGet [("version", Toml.int 0),
        ("packages", Toml.arr ((cache.map Prod.snd).map LockEntry.toToml))]
        "version" = some (Toml.int 0) from rfl]
    dsimp only
    simp
  rw [key, rebuild_cache cache [] hwf (by simpa using hnd)]
  simp

/-- Witness for C7 at a concrete one-entry lock document. -/
theorem c7_lockfile_round_trip_witness :
    Lockfile.load_or_init
        (some (Lockfile.save ⟨0, [("u@v1", ⟨"u", "v1", "ab"⟩)]⟩)) =
      .ok ⟨0, [("u@v1", ⟨"u", "v1", "ab"⟩)]⟩ :=
  c7_lockfile_round_trip ⟨0, [("u@v1", ⟨"u", "v1", "ab"⟩)]⟩ rfl
    (by
      intro p hp
      simp only [List.mem_singleton] at hp
      subst hp
      rfl)
    (by simp)

/-- A filesystem path (`PathBuf`): an absolute flag and the list of
segments pushed onto it.  `PathBuf::push`/`join` with a relative argument
appends its segments; with an absolute argument it replaces the path.
Path strings are kept as single opaque segments (their internal separator
structure plays no role in these claims). -/
structure MPath where
  abs : Bool
  segs : List String
deriving DecidableEq, Repr

/-- `PathBuf::join` with a single relative segment. -/
def MPath.push (p : MPath) (s : String) : MPath :=
  ⟨p.abs, p.segs ++ [s]⟩

/-- `PathBuf::from({a string})`: absolute exactly when the string starts
with a slash (Unix semantics). -/
def MPath.ofString (s : String) : MPath :=
  ⟨decide (s.data.head? = some '/'), [s]⟩

/-- `PathBuf::join` with another path. -/
def MPath.join (p q : MPath) : MPath :=
  if q.abs then q else ⟨p.abs, p.segs ++ q.segs⟩

/-- `Path::is_absolute`. -/
def MPath.is_absolute (p : MPath) : Bool :=
  p.abs

/-- `cli::install::Dependency`: one entry of a `Nargo.toml` dependencies
table. -/
structure Dependency where
  name : String
  git : Option String
  tag : Option String
  directory : Option String
  path : Option String
deriving DecidableEq, Repr

/-- `Dependency::is_local`. -/
def Dependency.is_local (d : Dependency) : Bool :=
  d.path.isSome

/-- `Dependency::identifier`: `"{git}@{tag}"` when both are set, else the
local path string, else an error. -/
def Dependency.identifier (d : Dependency) : Except String String :=
  match d.git, d.tag with
  | some git, some tag => .ok (git ++ "@" ++ tag)
  | _, _ =>
    match d.path with
    | some path => .ok path
    | none => .error "invalid dependency configuration"

/-- `Dependency::module_path`: join the optional subdirectory.  The code
`assert!`s the subdirectory is relative; the model returns the panic as
an error, since a panic also aborts the run. -/
def Dependency.module_path (d : Dependency) (pkg_path : MPath) :
    Except String MPath :=
  match d.directory with
  | some dir =>
    if (MPath.ofString dir).abs then .error "directory must not be absolute"
    else .ok (pkg_path.join (MPath.ofString dir))
  | none => .ok pkg_path

/-- The errors the reconciliation phase of `install` (lines 300-358) can
abort with, each carrying the data interpolated into its `anyhow`
message. -/
inductive InstallError
  | configError (msg : String)
  | hashDirFailed
  | unknownLockfileIdentifier (identifier : String)
  | depNotEnumerated (git : String)
  | depLockfileMismatch (packageName : String)
  | rootLockfileMismatch (depName : String)
  | upsertPathNotAbsolute
deriving DecidableEq, Repr

/-- Lines 300-307 of `install`: compute, for every resolved dependency,
the content hash of its module path, keyed by identifier.
`nrpm_tarball::hash_dir` is not among the sources (only its callers are);
modelled from the spec: per §4.3 it deterministically digests the
directory tree at a path, so it is taken as an opaque deterministic map
from a path to the digest's hex string (`none` a hashing failure). -/
def chStep (hashDir : MPath → Option String)
    (hs : List (String × String)) (pd : MPath × Dependency) :
    Except InstallError (List (String × String)) :=
  match pd.2.identifier with
  | .error msg => .error (.configError msg)
  | .ok ident =>
    match hashDir pd.1 with
    | none => .error .hashDirFailed
    | some h => .ok (hmInsert hs ident h)

def computeHashes (hashDir : MPath → Option String)
    (allDeps : List (MPath × Dependency)) :
    Except InstallError (List (String × String)) :=
  allDeps.foldlM (chStep hashDir) []

/-- The body of the entry loop in lines 311-326 of `install`: look up the
fresh hash for a dependent-lockfile entry and compare. -/
def checkEntry (hashes : List (String × String))
    (allDepsMap : List (String × (MPath × Dependency)))
    (entry : LockEntry) : Except InstallError Unit :=
  match hmGet hashes entry.identifier with
  | none => .error (.unknownLockfileIdentifier entry.identifier)
  | some hash =>
    if hash ≠ entry.blake3 then
      match hmGet allDepsMap entry.identifier with
      | none => .error (.depNotEnumerated entry.git)
      | some pd => .error (.depLockfileMismatch pd.2.name)
    else .ok ()

/-- Lines 310-327 of `install`: for every dependency's own lock document,
check each of its entries against the freshly computed hashes.  Note the
loop discards the identifier of the dependency that owns the lock
document (`for (_identifier, lockfile) in all_lockfiles`). -/
def checkDepLockfiles (hashes : List (String × String))
    (allDepsMap : List (String × (MPath × Dependency)))
    (allLockfiles : List (String × Lockfile)) : Except InstallError Unit :=
  allLockfiles.foldlM (fun _ il =>
    il.2.entries.foldlM (fun _ entry =>
      checkEntry hashes allDepsMap entry) ()) ()

/-- Lines 331-337 of `install`: remove every lock entry whose identifier
is not a key of the resolved-dependency map.  The loop iterates a
snapshot of the entries and removes from the live lockfile. -/
def pruneLockfile (lockfile : Lockfile)
    (allDepsMap : List (String × (MPath × Dependency))) : Lockfile :=
  lockfile.entries.foldl (fun lf entry =>
    if (hmGet allDepsMap entry.identifier).isNone then
      lf.remove entry.identifier
    else lf) lockfile

/-- `Lockfile::upsert`: require an absolute path, hash the contents at
`path` (`nrpm_tarball::hash_dir`, the opaque parameter), and, when the
dependency is a git dependency, insert an entry keyed by its
identifier. -/
def Lockfile.upsert (lf : Lockfile) (hashDir : MPath → Option String)
    (dep : Dependency) (path : MPath) : Except InstallError Lockfile :=
  if ¬ path.is_absolute then .error .upsertPathNotAbsolute
  else
    match hashDir path with
    | none => .error .hashDirFailed
    | some hash =>
      match dep.git, dep.tag with
      | some git, some tag =>
        match dep.identifier with
        | .error msg => .error (.configError msg)
        | .ok ident =>
          .ok ⟨lf.version, hmInsert lf.packages_cache ident ⟨git, tag, hash⟩⟩
      | _, _ => .ok lf

/-- Lines 339-357 of `install`: for every resolved dependency that is not
local, verify its existing root lock entry against the fresh hash (a
mismatch aborts), or insert a new entry via `upsert`. -/
def viStep (hashDir : MPath → Option String)
    (hashes : List (String × String)) (lf : Lockfile)
    (pd : MPath × Dependency) : Except InstallError Lockfile :=
  if pd.2.is_local then .ok lf
  else
    match pd.2.identifier with
    | .error msg => .error (.configError msg)
    | .ok ident =>
      match lf.entry ident with
      | some entry =>
        (match hmGet hashes entry.identifier with
        | none => .error (.unknownLockfileIdentifier entry.identifier)
        | some hash =>
          if hash ≠ entry.blake3 then
            .error (.rootLockfileMismatch pd.2.name)
          else .ok lf)
      | none => lf.upsert hashDir pd.2 pd.1

def verifyOrInsert (hashDir : MPath → Option String)
    (hashes : List (String × String))
    (allDeps : List (MPath × Dependency)) (lockfile0 : Lockfile) :
    Except InstallError Lockfile :=
  allDeps.foldlM (viStep hashDir hashes) lockfile0

/-- Lines 300-358 of `install` (the reconciliation that follows the
traversal): compute hashes, check every dependency's own lock document,
prune stale entries from the root lock document, then verify-or-insert an
entry for every non-local dependency.  The returned lockfile is exactly
what `lockfile.save` then persists; an error return models the abort
before `save` runs, so on error the document on disk is not updated. -/
def installTail (hashDir : MPath → Option String)
    (allDepsMap : List (String × (MPath × Dependency)))
    (allLockfiles : List (String × Lockfile))
    (rootLock : Lockfile) : Except InstallError Lockfile :=
  match computeHashes hashDir (allDepsMap.map Prod.snd) with
  | .error e => .error e
  | .ok hashes =>
    match checkDepLockfiles hashes allDepsMap allLockfiles with
    | .error e => .error e
    | .ok _ =>
      verifyOrInsert hashDir hashes (allDepsMap.map Prod.snd)
        (pruneLockfile rootLock allDepsMap)

theorem hmInsert_keys_sub {α : Type} (m : List (String × α)) (k : String)
    (v : α) : ((hmInsert m k v).map Prod.fst) ⊆ k :: m.map Prod.fst := by
  induction m with
  | nil => simp [hmInsert]
  | cons p rest ih =>
    simp only [hmInsert]
    by_cases h1 : p.1 = k
    · rw [if_pos h1]
      intro x hx
      simp only [List.map_cons, List.mem_cons] at hx ⊢
      rcases hx with h | h
      · exact Or.inl h
      · exact Or.inr (Or.inr h)
    · rw [if_neg h1]
      intro x hx
      simp only [List.map_cons, List.mem_cons] at hx ⊢
      rcases hx with h | h
      · exact Or.inr (Or.inl h)
      · rcases List.mem_cons.mp (ih h) with h2 | h2
        · exact Or.inl h2
        · exact Or.inr (Or.inr h2)

theorem hmInsert_nodup {α : Type} (m : List (String × α)) (k : String)
    (v : α) (h : (m.map Prod.fst).Nodup) :
    ((hmInsert m k v).map Prod.fst).Nodup := by
  induction m with
  | nil => simp [hmInsert]
  | cons p rest ih =>
    simp only [List.map_cons, List.nodup_cons] at h
    simp only [hmInsert]
    by_cases h1 : p.1 = k
    · rw [if_pos h1]
      simp only [List.map_cons, List.nodup_cons]
      exact ⟨h1 ▸ h.1, h.2⟩
    · rw [if_neg h1]
      simp only [List.map_cons, List.nodup_cons]
      refine ⟨fun hx => ?_, ih h.2⟩
      rcases List.mem_cons.mp (hmInsert_keys_sub rest k v hx) with h2 | h2
      · exact h1 h2
      · exact h.1 h2

theorem mem_hmInsert {α : Type} {x : String × α}
    {m : List (String × α)} {k : String} {v : α}
    (h : x ∈ hmInsert m k v) : x = (k, v) ∨ x ∈ m := by
  induction m with
  | nil => simpa [hmInsert] using h
  | cons p rest ih =>
    simp only [hmInsert] at h
    by_cases h1 : p.1 = k
    · rw [if_pos h1] at h
      rcases List.mem_cons.mp h with h | h
      · exact Or.inl h
      · exact Or.inr (List.mem_cons_of_mem _ h)
    · rw [if_neg h1] at h
      rcases List.mem_cons.mp h with h | h
      · exact Or.inr (h ▸ List.mem_cons_self _ _)
      · rcases ih h with h | h
        · exact Or.inl h
        · exact Or.inr (List.mem_cons_of_mem _ h)

theorem hmGet_remove (lf : Lockfile) (i id : String) :
    hmGet (lf.remove i).packages_cache id =
      if id = i then none else hmGet lf.packages_cache id := by
  obtain ⟨ver, cache⟩ := lf
  simp only [Lockfile.remove]
  induction cache with
  | nil => simp [hmGet]
  | cons p rest ih =>
    by_cases h1 : p.1 = i
    · rw [List.filter_cons_of_neg (by simp [h1])]
      rw [ih]
      by_cases h2 : id = i
      · rw [if_pos h2, if_pos h2]
      · rw [if_neg h2, if_neg h2]
        simp only [hmGet]
        rw [if_neg (fun he => h2 (he.symm.trans h1))]
    · rw [List.filter_cons_of_pos (by simp [h1])]
      simp only [hmGet]
      by_cases h3 : p.1 = id
      · rw [if_pos h3, if_pos h3,
          if_neg (fun he : id = i => h1 (h3.trans he))]
      · rw [if_neg h3, if_neg h3, ih]

theorem prune_fold_sublist (entries : List LockEntry)
    (m : List (String × (MPath × Dependency))) (lf : Lockfile) :
    (entries.foldl (fun lf entry =>
        if (hmGet m entry.identifier).isNone then lf.remove entry.identifier
        else lf) lf).packages_cache.Sublist lf.packages_cache := by
  induction entries generalizing lf with
  | nil => exact List.Sublist.refl _
  | cons e rest ih =>
    simp only [List.foldl_cons]
    by_cases hc : (hmGet m e.identifier).isNone
    · rw [if_pos hc]
      exact (ih (lf.remove e.identifier)).trans (List.filter_sublist _)
    · rw [if_neg hc]
      exact ih lf

theorem prune_fold_entry (entries : List LockEntry)
    (m : List (String × (MPath × Dependency))) (lf : Lockfile)
    (id : String) :
    hmGet ((entries.foldl (fun lf entry =>
        if (hmGet m entry.identifier).isNone then lf.remove entry.identifier
        else lf) lf).packages_cache) id =
      if (∃ en ∈ entries, en.identifier = id) ∧ (hmGet m id).isNone then none
      else hmGet lf.packages_cache id := by
  induction entries generalizing lf with
  | nil => simp
  | cons e rest ih =>
    simp only [List.foldl_cons]
    by_cases hc : (hmGet m e.identifier).isNone
    · rw [if_pos hc, ih]
      by_cases h2 : (∃ en ∈ rest, en.identifier = id) ∧
          (hmGet m id).isNone
      · rw [if_pos h2, if_pos ⟨⟨h2.1.choose,
          List.mem_cons_of_mem _ h2.1.choose_spec.1,
          h2.1.choose_spec.2⟩, h2.2⟩]
      · rw [if_neg h2, hmGet_remove]
        by_cases h3 : id = e.identifier
        · rw [if_pos h3, if_pos ⟨⟨e, List.mem_cons_self _ _, h3.symm⟩,
            h3 ▸ hc⟩]
        · rw [if_neg h3, if_neg]
          rintro ⟨⟨en, hen, henid⟩, hnone⟩
          rcases List.mem_cons.mp hen with h4 | h4
          · exact h3 (henid.symm.trans (congrArg LockEntry.identifier h4))
          · exact h2 ⟨⟨en, h4, henid⟩, hnone⟩
    · rw [if_neg hc, ih]
      by_cases h2 : (∃ en ∈ rest, en.identifier = id) ∧
          (hmGet m id).isNone
      · rw [if_pos h2, if_pos ⟨⟨h2.1.choose,
          List.mem_cons_of_mem _ h2.1.choose_spec.1,
          h2.1.choose_spec.2⟩, h2.2⟩]
      · rw [if_neg h2, if_neg]
        rintro ⟨⟨en, hen, henid⟩, hnone⟩
        rcases List.mem_cons.mp hen with h4 | h4
        · exact hc (by
            rw [show e.identifier = id from
              (congrArg LockEntry.identifier h4).symm.trans henid]
            exact hnone)
        · exact h2 ⟨⟨en, h4, henid⟩, hnone⟩

theorem pruneLockfile_entry (rootLock : Lockfile)
    (m : List (String × (MPath × Dependency)))
    (hwf : ∀ q ∈ rootLock.packages_cache, q.1 = q.2.identifier)
    (id : String) :
    (pruneLockfile rootLock m).entry id =
      if (hmGet m id).isSome then rootLock.entry id else none := by
  unfold pruneLockfile Lockfile.entry
  rw [prune_fold_entry]
  by_cases hs : (hmGet m id).isSome
  · rw [if_pos hs, if_neg]
    rintro ⟨-, hnone⟩
    rw [Option.isNone_iff_eq_none.mp hnone] at hs
    simp at hs
  · rw [if_neg hs]
    cases hroot : hmGet rootLock.packages_cache id with
    | none => simp
    | some entry =>
      rw [if_pos]
      refine ⟨⟨entry, ?_, ?_⟩, ?_⟩
      · exact List.mem_map.mpr ⟨(id, entry), hmGet_some_mem hroot, rfl⟩
      · exact (hwf (id, entry) (hmGet_some_mem hroot)).symm
      · cases h : hmGet m id with
        | none => rfl
        | some _ => simp [h] at hs

theorem pruneLockfile_wf (rootLock : Lockfile)
    (m : List (String × (MPath × Dependency)))
    (hwf : ∀ q ∈ rootLock.packages_cache, q.1 = q.2.identifier) :
    ∀ q ∈ (pruneLockfile rootLock m).packages_cache, q.1 = q.2.identifier :=
  fun q hq => hwf q ((prune_fold_sublist _ m rootLock).mem hq)

theorem pruneLockfile_nodup (rootLock : Lockfile)
    (m : List (String × (MPath × Dependency)))
    (hnd : (rootLock.packages_cache.map Prod.fst).Nodup) :
    ((pruneLockfile rootLock m).packages_cache.map Prod.fst).Nodup :=
  hnd.sublist ((prune_fold_sublist _ m rootLock).map Prod.fst)

theorem is_local_false_path_none {d : Dependency}
    (h : d.is_local = false) : d.path = none := by
  unfold Dependency.is_local at h
  cases hp : d.path with
  | none => rfl
  | some p => rw [hp] at h; simp at h

theorem dep_nonlocal_ident {d : Dependency} {i : String}
    (hp : d.path = none) (hi : d.identifier = .ok i) :
    ∃ g t, d.git = some g ∧ d.tag = some t ∧ i = g ++ "@" ++ t := by
  unfold Dependency.identifier at hi
  cases hg : d.git with
  | none => rw [hg, hp] at hi; simp at hi
  | some g =>
    cases ht : d.tag with
    | none => rw [hg, ht, hp] at hi; simp at hi
    | some t =>
      rw [hg, ht] at hi
      simp only [Except.ok.injEq] at hi
      exact ⟨g, t, rfl, rfl, hi.symm⟩

theorem upsert_ok_inv {lf lfI : Lockfile} {hashDir : MPath → Option String}
    {d : Dependency} {q : MPath} {i : String}
    (hnl : d.path = none) (hid : d.identifier = .ok i)
    (hok : lf.upsert hashDir d q = .ok lfI) :
    ∃ g t h, d.git = some g ∧ d.tag = some t ∧ i = g ++ "@" ++ t ∧
      hashDir q = some h ∧ q.is_absolute = true ∧
      lfI = ⟨lf.version, hmInsert lf.packages_cache i ⟨g, t, h⟩⟩ := by
  obtain ⟨g, t, hg, ht, hi⟩ := dep_nonlocal_ident hnl hid
  unfold Lockfile.upsert at hok
  by_cases hab : q.is_absolute = true
  · rw [if_neg (by simp [hab])] at hok
    cases hh : hashDir q with
    | none => rw [hh] at hok; exact absurd hok (by simp)
    | some h =>
      rw [hh] at hok
      simp only [hg, ht, hid] at hok
      simp only [Except.ok.injEq] at hok
      exact ⟨g, t, h, hg, ht, hi, rfl, hab, hok.symm⟩
  · rw [if_pos (by simpa using hab)] at hok
    exact absurd hok (by simp)

theorem viStep_local {hashDir : MPath → Option String}
    {hashes : List (String × String)} {lf : Lockfile}
    {pd : MPath × Dependency} (h : pd.2.is_local = true) :
    viStep hashDir hashes lf pd = .ok lf := by
  unfold viStep
  rw [if_pos h]

theorem verifyOrInsert_cons (hashDir : MPath → Option String)
    (hashes : List (String × String)) (pd : MPath × Dependency)
    (l : List (MPath × Dependency)) (lf0 : Lockfile) :
    verifyOrInsert hashDir hashes (pd :: l) lf0 =
      match viStep hashDir hashes lf0 pd with
      | .error e => .error e
      | .ok lf1 => verifyOrInsert hashDir hashes l lf1 := by
  unfold verifyOrInsert
  simp only [List.foldlM]
  cases viStep hashDir hashes lf0 pd with
  | error e => rfl
  | ok lf1 => rfl

theorem verifyOrInsert_ok_matched (hashDir : MPath → Option String)
    (hashes : List (String × String))
    (mp : List (String × (MPath × Dependency))) (lf0 lf' : Lockfile)
    (hkeys : ∀ p ∈ mp, p.2.2.identifier = .ok p.1)
    (hnd : (mp.map Prod.fst).Nodup)
    (hok : verifyOrInsert hashDir hashes (mp.map Prod.snd) lf0 = .ok lf') :
    ∀ p ∈ mp, p.2.2.is_local = false → ∀ entry,
      lf0.entry p.1 = some entry →
      hmGet hashes entry.identifier = some entry.blake3 := by
  induction mp generalizing lf0 with
  | nil => intro p hp; exact absurd hp (List.not_mem_nil p)
  | cons p0 rest ih =>
    obtain ⟨k0, q0, d0⟩ := p0
    have hid0 : d0.identifier = .ok k0 :=
      hkeys (k0, q0, d0) (List.mem_cons_self _ _)
    have hkeys' : ∀ p ∈ rest, p.2.2.identifier = .ok p.1 :=
      fun p hp => hkeys p (List.mem_cons_of_mem _ hp)
    have hnd' : (rest.map Prod.fst).Nodup :=
      (List.nodup_cons.mp (by simpa using hnd)).2
    have hk0 : k0 ∉ rest.map Prod.fst :=
      (List.nodup_cons.mp (by simpa using hnd)).1
    rw [List.map_cons, verifyOrInsert_cons] at hok
    cases hbody : viStep hashDir hashes lf0 (q0, d0) with
    | error e =>
      simp only [hbody] at hok
      exact absurd hok (by simp)
    | ok lf1 =>
      simp only [hbody] at hok
      unfold viStep at hbody
      intro p hp hpl entry hentry
      by_cases hl : d0.is_local = true
      · rw [if_pos hl] at hbody
        have hlf1 : lf1 = lf0 := by
          simpa using hbody.symm
        subst hlf1
        rcases List.mem_cons.mp hp with hph | hpt
        · rw [hph] at hpl
          simp only at hpl
          rw [hpl] at hl
          exact absurd hl (by simp)
        · exact ih lf1 hkeys' hnd' hok p hpt hpl entry hentry
      · rw [if_neg hl] at hbody
        have hl' : d0.is_local = false := by
          cases h : d0.is_local with
          | true => exact absurd h hl
          | false => rfl
        simp only [hid0] at hbody
        cases hent : lf0.entry k0 with
        | some entry0 =>
          simp only [hent] at hbody
          cases hget : hmGet hashes entry0.identifier with
          | none =>
            simp only [hget] at hbody
            exact absurd hbody (by simp)
          | some h =>
            simp only [hget] at hbody
            by_cases hne : h ≠ entry0.blake3
            · rw [if_pos hne] at hbody
              exact absurd hbody (by simp)
            · rw [if_neg hne] at hbody
              push_neg at hne
              have hlf1 : lf1 = lf0 := by simpa using hbody.symm
              subst hlf1
              rcases List.mem_cons.mp hp with hph | hpt
              · rw [hph] at hentry
                simp only at hentry
                rw [hent] at hentry
                have : entry = entry0 := by simpa using hentry.symm
                subst this
                rw [hget, hne]
              · exact ih lf1 hkeys' hnd' hok p hpt hpl entry hentry
        | none =>
          simp only [hent] at hbody
          rcases List.mem_cons.mp hp with hph | hpt
          · rw [hph] at hentry
            simp only at hentry
            rw [hent] at hentry
            exact absurd hentry (by simp)
          · obtain ⟨g, t, h, hg, ht, hi, hh, hab, hlf1⟩ :=
              upsert_ok_inv (is_local_false_path_none hl') hid0 hbody
            have hne0 : p.1 ≠ k0 := by
              intro he
              exact hk0 (he ▸ List.mem_map.mpr ⟨p, hpt, rfl⟩)
            have hentry1 : lf1.entry p.1 = some entry := by
              rw [hlf1]
              unfold Lockfile.entry
              simp only
              rw [hmGet_hmInsert, if_neg hne0]
              exact hentry
            exact ih lf1 hkeys' hnd' hok p hpt hpl entry hentry1

theorem verifyOrInsert_ok_entry_iff (hashDir : MPath → Option String)
    (hashes : List (String × String))
    (mp : List (String × (MPath × Dependency))) (lf0 lf' : Lockfile)
    (hkeys : ∀ p ∈ mp, p.2.2.identifier = .ok p.1)
    (hok : verifyOrInsert hashDir hashes (mp.map Prod.snd) lf0 = .ok lf') :
    ∀ id, (lf'.entry id).isSome ↔
      ((lf0.entry id).isSome ∨
        ∃ p ∈ mp, p.1 = id ∧ p.2.2.is_local = false) := by
  induction mp generalizing lf0 with
  | nil =>
    intro id
    have : lf' = lf0 := by
      simpa [verifyOrInsert, List.foldlM, pure, Except.pure] using hok.symm
    subst this
    simp
  | cons p0 rest ih =>
    obtain ⟨k0, q0, d0⟩ := p0
    have hid0 : d0.identifier = .ok k0 :=
      hkeys (k0, q0, d0) (List.mem_cons_self _ _)
    have hkeys' : ∀ p ∈ rest, p.2.2.identifier = .ok p.1 :=
      fun p hp => hkeys p (List.mem_cons_of_mem _ hp)
    rw [List.map_cons, verifyOrInsert_cons] at hok
    intro id
    cases hbody : viStep hashDir hashes lf0 (q0, d0) with
    | error e =>
      simp only [hbody] at hok
      exact absurd hok (by simp)
    | ok lf1 =>
      simp only [hbody] at hok
      unfold viStep at hbody
      have hih := ih lf1 hkeys' hok id
      by_cases hl : d0.is_local = true
      · rw [if_pos hl] at hbody
        have hlf1 : lf1 = lf0 := by simpa using hbody.symm
        subst hlf1
        rw [hih]
        constructor
        · rintro (h | ⟨p, hp, hpid, hpl⟩)
          · exact Or.inl h
          · exact Or.inr ⟨p, List.mem_cons_of_mem _ hp, hpid, hpl⟩
        · rintro (h | ⟨p, hp, hpid, hpl⟩)
          · exact Or.inl h
          · rcases List.mem_cons.mp hp with hph | hpt
            · rw [hph] at hpl
              simp only at hpl
              rw [hpl] at hl
              exact absurd hl (by simp)
            · exact Or.inr ⟨p, hpt, hpid, hpl⟩
      · rw [if_neg hl] at hbody
        have hl' : d0.is_local = false := by
          cases h : d0.is_local with
          | true => exact absurd h hl
          | false => rfl
        simp only [hid0] at hbody
        cases hent : lf0.entry k0 with
        | some entry0 =>
          simp only [hent] at hbody
          cases hget : hmGet hashes entry0.identifier with
          | none =>
            simp only [hget] at hbody
            exact absurd hbody (by simp)
          | some h =>
            simp only [hget] at hbody
            by_cases hne : h ≠ entry0.blake3
            · rw [if_pos hne] at hbody
              exact absurd hbody (by simp)
            · rw [if_neg hne] at hbody
              have hlf1 : lf1 = lf0 := by simpa using hbody.symm
              subst hlf1
              rw [hih]
              constructor
              · rintro (hx | ⟨p, hp, hpid, hpl⟩)
                · exact Or.inl hx
                · exact Or.inr ⟨p, List.mem_cons_of_mem _ hp, hpid, hpl⟩
              · rintro (hx | ⟨p, hp, hpid, hpl⟩)
                · exact Or.inl hx
                · rcases List.mem_cons.mp hp with hph | hpt
                  · rw [hph] at hpid
                    simp only at hpid
                    subst hpid
                    exact Or.inl (by rw [hent]; rfl)
                  · exact Or.inr ⟨p, hpt, hpid, hpl⟩
        | none =>
          simp only [hent] at hbody
          obtain ⟨g, t, h, hg, ht, hi, hh, hab, hlf1⟩ :=
            upsert_ok_inv (is_local_false_path_none hl') hid0 hbody
          have hlf1e : ∀ i, lf1.entry i =
              if i = k0 then some ⟨g, t, h⟩ else lf0.entry i := by
            intro i
            rw [hlf1]
            unfold Lockfile.entry
            simp only
            rw [hmGet_hmInsert]
          rw [hih]
          constructor
          · rintro (hx | ⟨p, hp, hpid, hpl⟩)
            · rw [hlf1e id] at hx
              by_cases hidk : id = k0
              · rw [hidk]
                exact Or.inr ⟨(k0, q0, d0), List.mem_cons_self _ _, rfl, hl'⟩
              · rw [if_neg hidk] at hx
                exact Or.inl hx
            · exact Or.inr ⟨p, List.mem_cons_of_mem _ hp, hpid, hpl⟩
          · rintro (hx | ⟨p, hp, hpid, hpl⟩)
            · refine Or.inl ?_
              rw [hlf1e id]
              by_cases hidk : id = k0
              · rw [if_pos hidk]; rfl
              · rw [if_neg hidk]; exact hx
            · rcases List.mem_cons.mp hp with hph | hpt
              · refine Or.inl ?_
                rw [hlf1e id]
                rw [hph] at hpid
                simp only at hpid
                rw [if_pos hpid.symm]
                rfl
              · exact Or.inr ⟨p, hpt, hpid, hpl⟩

theorem viStep_ok_cache {hashDir : MPath → Option String}
    {hashes : List (String × String)} {lf lf1 : Lockfile}
    {pd : MPath × Dependency}
    (h : viStep hashDir hashes lf pd = .ok lf1) :
    lf1.packages_cache = lf.packages_cache ∨
      ∃ k v, lf1.packages_cache = hmInsert lf.packages_cache k v := by
  unfold viStep at h
  by_cases hl : pd.2.is_local = true
  · rw [if_pos hl] at h
    exact Or.inl (by rw [show lf1 = lf from by simpa using h.symm])
  · rw [if_neg hl] at h
    cases hid : pd.2.identifier with
    | error msg =>
      simp only [hid] at h
      exact absurd h (by simp)
    | ok ident =>
      simp only [hid] at h
      cases hent : lf.entry ident with
      | some entry0 =>
        simp only [hent] at h
        cases hget : hmGet hashes entry0.identifier with
        | none =>
          simp only [hget] at h
          exact absurd h (by simp)
        | some hsh =>
          simp only [hget] at h
          by_cases hne : hsh ≠ entry0.blake3
          · rw [if_pos hne] at h
            exact absurd h (by simp)
          · rw [if_neg hne] at h
            exact Or.inl (by rw [show lf1 = lf from by simpa using h.symm])
      | none =>
        simp only [hent] at h
        unfold Lockfile.upsert at h
        by_cases hab : pd.1.is_absolute = true
        · rw [if_neg (by simp [hab])] at h
          cases hh : hashDir pd.1 with
          | none => rw [hh] at h; exact absurd h (by simp)
          | some hsh =>
            rw [hh] at h
            cases hg : pd.2.git with
            | none =>
              simp only [hg] at h
              exact Or.inl (by rw [show lf1 = lf from by simpa using h.symm])
            | some g =>
              simp only [hg] at h
              cases ht : pd.2.tag with
              | none =>
                simp only [ht] at h
                exact Or.inl (by rw [show lf1 = lf from by simpa using h.symm])
              | some t =>
                simp only [ht] at h
                cases hid2 : pd.2.identifier with
                | error msg =>
                  rw [hid] at hid2
                  exact absurd hid2 (by simp)
                | ok i2 =>
                  simp only [hid2] at h
                  refine Or.inr ⟨i2, ⟨g, t, hsh⟩, ?_⟩
                  rw [show lf1 = ⟨lf.version,
                    hmInsert lf.packages_cache i2 ⟨g, t, hsh⟩⟩
                    from by simpa using h.symm]
        · rw [if_pos (by simpa using hab)] at h
          exact absurd h (by simp)

theorem verifyOrInsert_ok_nodup (hashDir : MPath → Option String)
    (hashes : List (String × String))
    (deps : List (MPath × Dependency)) (lf0 lf' : Lockfile)
    (hnd0 : (lf0.packages_cache.map Prod.fst).Nodup)
    (hok : verifyOrInsert hashDir hashes deps lf0 = .ok lf') :
    (lf'.packages_cache.map Prod.fst).Nodup := by
  induction deps generalizing lf0 with
  | nil =>
    have : lf' = lf0 := by
      simpa [verifyOrInsert, List.foldlM, pure, Except.pure] using hok.symm
    subst this
    exact hnd0
  | cons pd rest ih =>
    rw [verifyOrInsert_cons] at hok
    cases hbody : viStep hashDir hashes lf0 pd with
    | error e =>
      simp only [hbody] at hok
      exact absurd hok (by simp)
    | ok lf1 =>
      simp only [hbody] at hok
      rcases viStep_ok_cache hbody with hc | ⟨k, v, hc⟩
      · exact ih lf1 (hc ▸ hnd0) hok
      · exact ih lf1 (hc ▸ hmInsert_nodup _ k v hnd0) hok

theorem verifyOrInsert_error_form (hashDir : MPath → Option String)
    (hashes : List (String × String))
    (mp : List (String × (MPath × Dependency))) (lf0 : Lockfile)
    (e : InstallError)
    (hkeys : ∀ p ∈ mp, p.2.2.identifier = .ok p.1)
    (hnd : (mp.map Prod.fst).Nodup)
    (hwf0 : ∀ q ∈ lf0.packages_cache, q.1 = q.2.identifier)
    (habs : ∀ p ∈ mp, p.2.2.is_local = false → p.2.1.is_absolute = true)
    (hhash : ∀ p ∈ mp, (hashDir p.2.1).isSome)
    (hcover : ∀ p ∈ mp, (hmGet hashes p.1).isSome)
    (herr : verifyOrInsert hashDir hashes (mp.map Prod.snd) lf0 = .error e) :
    ∃ p ∈ mp, ∃ entry h, p.2.2.is_local = false ∧
      lf0.entry p.1 = some entry ∧ hmGet hashes p.1 = some h ∧
      h ≠ entry.blake3 ∧ e = .rootLockfileMismatch p.2.2.name := by
  induction mp generalizing lf0 with
  | nil =>
    exact absurd herr
      (by simp [verifyOrInsert, List.foldlM, pure, Except.pure])
  | cons p0 rest ih =>
    obtain ⟨k0, q0, d0⟩ := p0
    have hid0 : d0.identifier = .ok k0 :=
      hkeys (k0, q0, d0) (List.mem_cons_self _ _)
    have hkeys2 : ∀ p ∈ rest, p.2.2.identifier = .ok p.1 :=
      fun p hp => hkeys p (List.mem_cons_of_mem _ hp)
    have hnd2 : (rest.map Prod.fst).Nodup :=
      (List.nodup_cons.mp (by simpa using hnd)).2
    have hk0 : k0 ∉ rest.map Prod.fst :=
      (List.nodup_cons.mp (by simpa using hnd)).1
    have habs2 : ∀ p ∈ rest, p.2.2.is_local = false →
        p.2.1.is_absolute = true :=
      fun p hp => habs p (List.mem_cons_of_mem _ hp)
    have hhash2 : ∀ p ∈ rest, (hashDir p.2.1).isSome :=
      fun p hp => hhash p (List.mem_cons_of_mem _ hp)
    have hcover2 : ∀ p ∈ rest, (hmGet hashes p.1).isSome :=
      fun p hp => hcover p (List.mem_cons_of_mem _ hp)
    rw [List.map_cons, verifyOrInsert_cons] at herr
    cases hbody : viStep hashDir hashes lf0 (q0, d0) with
    | error e0 =>
      simp only [hbody] at herr
      have he : e = e0 := by simpa using herr.symm
      subst he
      unfold viStep at hbody
      by_cases hl : d0.is_local = true
      · rw [if_pos hl] at hbody
        exact absurd hbody (by simp)
      · rw [if_neg hl] at hbody
        have hl2 : d0.is_local = false := by
          cases h : d0.is_local with
          | true => exact absurd h hl
          | false => rfl
        simp only [hid0] at hbody
        cases hent : lf0.entry k0 with
        | some entry0 =>
          simp only [hent] at hbody
          have hident0 : entry0.identifier = k0 :=
            (hwf0 (k0, entry0) (hmGet_some_mem hent)).symm
          rw [hident0] at hbody
          cases hget : hmGet hashes k0 with
          | none =>
            have hcv := hcover (k0, q0, d0) (List.mem_cons_self _ _)
            simp only at hcv
            rw [hget] at hcv
            exact absurd hcv (by simp)
          | some h =>
            simp only [hget] at hbody
            by_cases hne : h ≠ entry0.blake3
            · rw [if_pos hne] at hbody
              have he0 : e = .rootLockfileMismatch d0.name := by
                simpa using hbody.symm
              exact ⟨(k0, q0, d0), List.mem_cons_self _ _, entry0, h,
                hl2, hent, hget, hne, he0⟩
            · rw [if_neg hne] at hbody
              exact absurd hbody (by simp)
        | none =>
          simp only [hent] at hbody
          unfold Lockfile.upsert at hbody
          have hab : q0.is_absolute = true :=
            habs (k0, q0, d0) (List.mem_cons_self _ _) hl2
          rw [if_neg (by simp [hab])] at hbody
          have hhq : (hashDir q0).isSome :=
            hhash (k0, q0, d0) (List.mem_cons_self _ _)
          cases hh : hashDir q0 with
          | none =>
            rw [hh] at hhq
            exact absurd hhq (by simp)
          | some hsh =>
            rw [hh] at hbody
            obtain ⟨g, t, hg, ht, hi⟩ :=
              dep_nonlocal_ident (is_local_false_path_none hl2) hid0
            simp only [hg, ht, hid0] at hbody
            exact absurd hbody (by simp)
    | ok lf1 =>
      simp only [hbody] at herr
      unfold viStep at hbody
      by_cases hl : d0.is_local = true
      · rw [if_pos hl] at hbody
        have hlf1 : lf1 = lf0 := by simpa using hbody.symm
        subst hlf1
        obtain ⟨p, hp, entry, h, c1, c2, c3, c4, c5⟩ :=
          ih lf1 hkeys2 hnd2 hwf0 habs2 hhash2 hcover2 herr
        exact ⟨p, List.mem_cons_of_mem _ hp, entry, h, c1, c2, c3, c4, c5⟩
      · rw [if_neg hl] at hbody
        have hl2 : d0.is_local = false := by
          cases h : d0.is_local with
          | true => exact absurd h hl
          | false => rfl
        simp only [hid0] at hbody
        cases hent : lf0.entry k0 with
        | some entry0 =>
          simp only [hent] at hbody
          cases hget : hmGet hashes entry0.identifier with
          | none =>
            simp only [hget] at hbody
            exact absurd hbody (by simp)
          | some h =>
            simp only [hget] at hbody
            by_cases hne : h ≠ entry0.blake3
            · rw [if_pos hne] at hbody
              exact absurd hbody (by simp)
            · rw [if_neg hne] at hbody
              have hlf1 : lf1 = lf0 := by simpa using hbody.symm
              subst hlf1
              obtain ⟨p, hp, entry, hx, c1, c2, c3, c4, c5⟩ :=
                ih lf1 hkeys2 hnd2 hwf0 habs2 hhash2 hcover2 herr
              exact ⟨p, List.mem_cons_of_mem _ hp, entry, hx, c1, c2, c3,
                c4, c5⟩
        | none =>
          simp only [hent] at hbody
          obtain ⟨g, t, hsh, hg, ht, hi, hh, hab, hlf1⟩ :=
            upsert_ok_inv (is_local_false_path_none hl2) hid0 hbody
          have hwf1 : ∀ q ∈ lf1.packages_cache, q.1 = q.2.identifier := by
            intro q hq
            rw [hlf1] at hq
            simp only at hq
            rcases mem_hmInsert hq with h1 | h1
            · rw [h1]
              simp only [LockEntry.identifier]
              exact hi
            · exact hwf0 q h1
          obtain ⟨p, hp, entry, hx, c1, c2, c3, c4, c5⟩ :=
            ih lf1 hkeys2 hnd2 hwf1 habs2 hhash2 hcover2 herr
          have hne0 : p.1 ≠ k0 := by
            intro he
            exact hk0 (he ▸ List.mem_map.mpr ⟨p, hp, rfl⟩)
          have c2' : lf0.entry p.1 = some entry := by
            rw [hlf1] at c2
            unfold Lockfile.entry at c2
            simp only at c2
            rw [hmGet_hmInsert, if_neg hne0] at c2
            exact c2
          exact ⟨p, List.mem_cons_of_mem _ hp, entry, hx, c1, c2', c3,
            c4, c5⟩

theorem chStep_ok_inv {hashDir : MPath → Option String}
    {hs0 hs1 : List (String × String)} {pd : MPath × Dependency}
    (h : chStep hashDir hs0 pd = .ok hs1) :
    ∃ ident hsh, pd.2.identifier = .ok ident ∧ hashDir pd.1 = some hsh ∧
      hs1 = hmInsert hs0 ident hsh := by
  unfold chStep at h
  cases hid : pd.2.identifier with
  | error msg =>
    simp only [hid] at h
    exact absurd h (by simp)
  | ok ident =>
    simp only [hid] at h
    cases hh : hashDir pd.1 with
    | none =>
      simp only [hh] at h
      exact absurd h (by simp)
    | some hsh =>
      simp only [hh] at h
      exact ⟨ident, hsh, rfl, rfl, by simpa using h.symm⟩

theorem chFold_cons (hashDir : MPath → Option String)
    (pd : MPath × Dependency) (l : List (MPath × Dependency))
    (hs0 : List (String × String)) :
    (pd :: l).foldlM (chStep hashDir) hs0 =
      match chStep hashDir hs0 pd with
      | .error e => .error e
      | .ok hs1 => l.foldlM (chStep hashDir) hs1 := by
  simp only [List.foldlM]
  cases chStep hashDir hs0 pd with
  | error e => rfl
  | ok hs1 => rfl

theorem chFold_mono (hashDir : MPath → Option String)
    (l : List (MPath × Dependency)) (hs0 hs : List (String × String))
    (k : String) (hok : l.foldlM (chStep hashDir) hs0 = .ok hs)
    (hk : (hmGet hs0 k).isSome) : (hmGet hs k).isSome := by
  induction l generalizing hs0 with
  | nil =>
    have : hs = hs0 := by
      simpa [List.foldlM, pure, Except.pure] using hok.symm
    exact this ▸ hk
  | cons pd rest ih =>
    rw [chFold_cons] at hok
    cases hc : chStep hashDir hs0 pd with
    | error e =>
      simp only [hc] at hok
      exact absurd hok (by simp)
    | ok hs1 =>
      simp only [hc] at hok
      obtain ⟨ident, hsh, -, -, hins⟩ := chStep_ok_inv hc
      refine ih hs1 hok ?_
      rw [hins, hmGet_hmInsert]
      by_cases hkk : k = ident
      · rw [if_pos hkk]; rfl
      · rw [if_neg hkk]; exact hk

theorem chFold_hashDir (hashDir : MPath → Option String)
    (l : List (MPath × Dependency)) (hs0 hs : List (String × String))
    (hok : l.foldlM (chStep hashDir) hs0 = .ok hs) :
    ∀ pd ∈ l, (hashDir pd.1).isSome := by
  induction l generalizing hs0 with
  | nil => intro pd hpd; exact absurd hpd (List.not_mem_nil pd)
  | cons pd0 rest ih =>
    rw [chFold_cons] at hok
    cases hc : chStep hashDir hs0 pd0 with
    | error e =>
      simp only [hc] at hok
      exact absurd hok (by simp)
    | ok hs1 =>
      simp only [hc] at hok
      intro pd hpd
      rcases List.mem_cons.mp hpd with hph | hpt
      · obtain ⟨ident, hsh, -, hh, -⟩ := chStep_ok_inv hc
        rw [hph, hh]
        rfl
      · exact ih hs1 hok pd hpt

theorem chFold_cover (hashDir : MPath → Option String)
    (mp : List (String × (MPath × Dependency)))
    (hs0 hs : List (String × String))
    (hkeys : ∀ p ∈ mp, p.2.2.identifier = .ok p.1)
    (hok : (mp.map Prod.snd).foldlM (chStep hashDir) hs0 = .ok hs) :
    ∀ p ∈ mp, (hmGet hs p.1).isSome := by
  induction mp generalizing hs0 with
  | nil => intro p hp; exact absurd hp (List.not_mem_nil p)
  | cons p0 rest ih =>
    rw [List.map_cons, chFold_cons] at hok
    cases hc : chStep hashDir hs0 p0.2 with
    | error e =>
      simp only [hc] at hok
      exact absurd hok (by simp)
    | ok hs1 =>
      simp only [hc] at hok
      intro p hp
      rcases List.mem_cons.mp hp with hph | hpt
      · obtain ⟨ident, hsh, hid, -, hins⟩ := chStep_ok_inv hc
        have hident : ident = p0.1 := by
          have := hkeys p0 (List.mem_cons_self _ _)
          rw [this] at hid
          simpa using hid.symm
        refine chFold_mono hashDir _ hs1 hs p.1 hok ?_
        rw [hins, hmGet_hmInsert, hph, ← hident, if_pos rfl]
        rfl
      · exact ih hs1 (fun q hq => hkeys q (List.mem_cons_of_mem _ hq)) hok
          p hpt

theorem computeHashes_hashDir (hashDir : MPath → Option String)
    (l : List (MPath × Dependency)) (hs : List (String × String))
    (hok : computeHashes hashDir l = .ok hs) :
    ∀ pd ∈ l, (hashDir pd.1).isSome :=
  chFold_hashDir hashDir l [] hs hok

theorem computeHashes_cover (hashDir : MPath → Option String)
    (mp : List (String × (MPath × Dependency)))
    (hs : List (String × String))
    (hkeys : ∀ p ∈ mp, p.2.2.identifier = .ok p.1)
    (hok : computeHashes hashDir (mp.map Prod.snd) = .ok hs) :
    ∀ p ∈ mp, (hmGet hs p.1).isSome :=
  chFold_cover hashDir mp [] hs hkeys hok

theorem checkEntry_ok_inv {hashes : List (String × String)}
    {mdeps : List (String × (MPath × Dependency))} {en : LockEntry}
    (h : checkEntry hashes mdeps en = .ok ()) :
    hmGet hashes en.identifier = some en.blake3 := by
  unfold checkEntry at h
  cases hget : hmGet hashes en.identifier with
  | none =>
    simp only [hget] at h
    exact absurd h (by simp)
  | some hash =>
    simp only [hget] at h
    by_cases hne : hash ≠ en.blake3
    · rw [if_pos hne] at h
      cases hd : hmGet mdeps en.identifier with
      | none =>
        simp only [hd] at h
        exact absurd h (by simp)
      | some pd =>
        simp only [hd] at h
        exact absurd h (by simp)
    · rw [if_neg hne] at h
      push_neg at hne
      rw [hne]

theorem checkEntry_error_inv {hashes : List (String × String)}
    {mdeps : List (String × (MPath × Dependency))} {en : LockEntry}
    {e : InstallError}
    (hcH : (hmGet hashes en.identifier).isSome)
    (hcD : (hmGet mdeps en.identifier).isSome)
    (herr : checkEntry hashes mdeps en = .error e) :
    ∃ pd h, hmGet mdeps en.identifier = some pd ∧
      hmGet hashes en.identifier = some h ∧ h ≠ en.blake3 ∧
      e = .depLockfileMismatch pd.2.name := by
  unfold checkEntry at herr
  cases hget : hmGet hashes en.identifier with
  | none => rw [hget] at hcH; exact absurd hcH (by simp)
  | some hash =>
    simp only [hget] at herr
    by_cases hne : hash ≠ en.blake3
    · rw [if_pos hne] at herr
      cases hd : hmGet mdeps en.identifier with
      | none => rw [hd] at hcD; exact absurd hcD (by simp)
      | some pd =>
        simp only [hd] at herr
        exact ⟨pd, hash, rfl, rfl, hne, by simpa using herr.symm⟩
    · rw [if_neg hne] at herr
      exact absurd herr (by simp)

theorem ckEntryFold_cons (hashes : List (String × String))
    (mdeps : List (String × (MPath × Dependency))) (en : LockEntry)
    (l : List LockEntry) :
    ((en :: l).foldlM (fun _ en => checkEntry hashes mdeps en) ()
        : Except InstallError Unit) =
      match checkEntry hashes mdeps en with
      | .error e => .error e
      | .ok _ => l.foldlM (fun _ en => checkEntry hashes mdeps en) () := by
  simp only [List.foldlM]
  cases checkEntry hashes mdeps en with
  | error e => rfl
  | ok u => cases u; rfl

theorem ckEntryFold_ok (hashes : List (String × String))
    (mdeps : List (String × (MPath × Dependency))) (l : List LockEntry)
    (hok : (l.foldlM (fun _ en => checkEntry hashes mdeps en) ()
        : Except InstallError Unit) = .ok ()) :
    ∀ en ∈ l, hmGet hashes en.identifier = some en.blake3 := by
  induction l with
  | nil => intro en hen; exact absurd hen (List.not_mem_nil en)
  | cons en0 rest ih =>
    rw [ckEntryFold_cons] at hok
    cases hc : checkEntry hashes mdeps en0 with
    | error e =>
      simp only [hc] at hok
      exact absurd hok (by simp)
    | ok u =>
      cases u
      simp only [hc] at hok
      intro en hen
      rcases List.mem_cons.mp hen with hph | hpt
      · exact hph ▸ checkEntry_ok_inv hc
      · exact ih hok en hpt

theorem ckEntryFold_error (hashes : List (String × String))
    (mdeps : List (String × (MPath × Dependency))) (l : List LockEntry)
    (e : InstallError)
    (hcH : ∀ en ∈ l, (hmGet hashes en.identifier).isSome)
    (hcD : ∀ en ∈ l, (hmGet mdeps en.identifier).isSome)
    (herr : (l.foldlM (fun _ en => checkEntry hashes mdeps en) ()
        : Except InstallError Unit) = .error e) :
    ∃ en ∈ l, ∃ pd h, hmGet mdeps en.identifier = some pd ∧
      hmGet hashes en.identifier = some h ∧ h ≠ en.blake3 ∧
      e = .depLockfileMismatch pd.2.name := by
  induction l with
  | nil =>
    exact absurd herr (by simp [List.foldlM, pure, Except.pure])
  | cons en0 rest ih =>
    rw [ckEntryFold_cons] at herr
    cases hc : checkEntry hashes mdeps en0 with
    | error e0 =>
      simp only [hc] at herr
      have he : e = e0 := by simpa using herr.symm
      subst he
      obtain ⟨pd, h, c1, c2, c3, c4⟩ := checkEntry_error_inv
        (hcH en0 (List.mem_cons_self _ _))
        (hcD en0 (List.mem_cons_self _ _)) hc
      exact ⟨en0, List.mem_cons_self _ _, pd, h, c1, c2, c3, c4⟩
    | ok u =>
      cases u
      simp only [hc] at herr
      obtain ⟨en, hen, pd, h, c1, c2, c3, c4⟩ := ih
        (fun q hq => hcH q (List.mem_cons_of_mem _ hq))
        (fun q hq => hcD q (List.mem_cons_of_mem _ hq)) herr
      exact ⟨en, List.mem_cons_of_mem _ hen, pd, h, c1, c2, c3, c4⟩

theorem ckLockFold_cons (hashes : List (String × String))
    (mdeps : List (String × (MPath × Dependency)))
    (il : String × Lockfile) (l : List (String × Lockfile)) :
    checkDepLockfiles hashes mdeps (il :: l) =
      match (il.2.entries.foldlM (fun _ en => checkEntry hashes mdeps en) ()
          : Except InstallError Unit) with
      | .error e => .error e
      | .ok _ => checkDepLockfiles hashes mdeps l := by
  unfold checkDepLockfiles
  simp only [List.foldlM]
  cases (il.2.entries.foldlM (fun _ en => checkEntry hashes mdeps en) ()
      : Except InstallError Unit) with
  | error e => rfl
  | ok u => cases u; rfl

theorem checkDepLockfiles_ok (hashes : List (String × String))
    (mdeps : List (String × (MPath × Dependency)))
    (lks : List (String × Lockfile))
    (hok : checkDepLockfiles hashes mdeps lks = .ok ()) :
    ∀ il ∈ lks, ∀ en ∈ il.2.entries,
      hmGet hashes en.identifier = some en.blake3 := by
  induction lks with
  | nil => intro il hil; exact absurd hil (List.not_mem_nil il)
  | cons il0 rest ih =>
    rw [ckLockFold_cons] at hok
    cases hc : (il0.2.entries.foldlM
        (fun _ en => checkEntry hashes mdeps en) ()
        : Except InstallError Unit) with
    | error e =>
      simp only [hc] at hok
      exact absurd hok (by simp)
    | ok u =>
      cases u
      simp only [hc] at hok
      intro il hil
      rcases List.mem_cons.mp hil with hph | hpt
      · exact hph ▸ ckEntryFold_ok hashes mdeps il0.2.entries hc
      · exact ih hok il hpt

theorem checkDepLockfiles_error (hashes : List (String × String))
    (mdeps : List (String × (MPath × Dependency)))
    (lks : List (String × Lockfile)) (e : InstallError)
    (hcH : ∀ il ∈ lks, ∀ en ∈ il.2.entries,
      (hmGet hashes en.identifier).isSome)
    (hcD : ∀ il ∈ lks, ∀ en ∈ il.2.entries,
      (hmGet mdeps en.identifier).isSome)
    (herr : checkDepLockfiles hashes mdeps lks = .error e) :
    ∃ il ∈ lks, ∃ en ∈ il.2.entries, ∃ pd h,
      hmGet mdeps en.identifier = some pd ∧
      hmGet hashes en.identifier = some h ∧ h ≠ en.blake3 ∧
      e = .depLockfileMismatch pd.2.name := by
  induction lks with
  | nil =>
    exact absurd herr (by simp [checkDepLockfiles, List.foldlM, pure,
      Except.pure])
  | cons il0 rest ih =>
    rw [ckLockFold_cons] at herr
    cases hc : (il0.2.entries.foldlM
        (fun _ en => checkEntry hashes mdeps en) ()
        : Except InstallError Unit) with
    | error e0 =>
      simp only [hc] at herr
      have he : e = e0 := by simpa using herr.symm
      subst he
      obtain ⟨en, hen, pd, h, c1, c2, c3, c4⟩ := ckEntryFold_error hashes
        mdeps il0.2.entries e
        (hcH il0 (List.mem_cons_self _ _))
        (hcD il0 (List.mem_cons_self _ _)) hc
      exact ⟨il0, List.mem_cons_self _ _, en, hen, pd, h, c1, c2, c3, c4⟩
    | ok u =>
      cases u
      simp only [hc] at herr
      obtain ⟨il, hil, en, hen, pd, h, c1, c2, c3, c4⟩ := ih
        (fun q hq => hcH q (List.mem_cons_of_mem _ hq))
        (fun q hq => hcD q (List.mem_cons_of_mem _ hq)) herr
      exact ⟨il, List.mem_cons_of_mem _ hil, en, hen, pd, h, c1, c2, c3,
        c4⟩

theorem bool_eq_false {b : Bool} (h : ¬ b = true) : b = false := by
  cases b with
  | false => rfl
  | true => exact absurd rfl h

/-- C4 counterexample: the resolved set holds a single Local dependency
whose identifier (the path string `"x@y"`) collides with the identifier
of a stale lock entry (`git = "x"`, `tag = "y"`).  The prune step keeps
the entry because its identifier is a key of the resolved map, and the
verify-or-insert step skips local dependencies, so reconciliation
succeeds and the persisted document still contains an entry, although the
resolved set contains no non-local identifier at all. -/
theorem c4_prune_counterexample :
    installTail (fun _ => some "h0")
        [("x@y", (⟨true, ["x@y"]⟩, ⟨"ld", none, none, none, some "x@y"⟩))]
        [] ⟨0, [("x@y", ⟨"x", "y", "h1"⟩)]⟩ =
      .ok ⟨0, [("x@y", ⟨"x", "y", "h1"⟩)]⟩
    ∧ (⟨"ld", none, none, none, some "x@y"⟩ : Dependency).is_local
        = true := by
  constructor
  · rfl
  · rfl

/-- C4 (amended): provided no local dependency's identifier occurs as a
key of the root Lock Document (the collision the counterexample
exhibits), a successful reconciliation leaves the root Lock Document with
exactly one entry per non-local resolved Identifier and no other
entries: stale identifiers are pruned, missing entries inserted, and
local dependencies never written. -/
theorem c4_reconcile_exact_nonlocal (hashDir : MPath → Option String)
    (allDepsMap : List (String × (MPath × Dependency)))
    (allLockfiles : List (String × Lockfile))
    (rootLock lf' : Lockfile)
    (hkeys : ∀ p ∈ allDepsMap, p.2.2.identifier = .ok p.1)
    (hwfRoot : ∀ q ∈ rootLock.packages_cache, q.1 = q.2.identifier)
    (hndRoot : (rootLock.packages_cache.map Prod.fst).Nodup)
    (hnocollide : ∀ p ∈ allDepsMap, p.2.2.is_local = true →
      rootLock.entry p.1 = none)
    (hok : installTail hashDir allDepsMap allLockfiles rootLock = .ok lf') :
    (lf'.packages_cache.map Prod.fst).Nodup ∧
    ∀ id, (lf'.entry id).isSome ↔
      ∃ p ∈ allDepsMap, p.1 = id ∧ p.2.2.is_local = false := by
  unfold installTail at hok
  cases hch : computeHashes hashDir (allDepsMap.map Prod.snd) with
  | error e =>
    simp only [hch] at hok
    exact absurd hok (by simp)
  | ok hashes =>
    simp only [hch] at hok
    cases hck : checkDepLockfiles hashes allDepsMap allLockfiles with
    | error e =>
      simp only [hck] at hok
      exact absurd hok (by simp)
    | ok u =>
      cases u
      simp only [hck] at hok
      have hnd1 := pruneLockfile_nodup rootLock allDepsMap hndRoot
      refine ⟨verifyOrInsert_ok_nodup hashDir hashes _ _ lf' hnd1 hok, ?_⟩
      intro id
      rw [verifyOrInsert_ok_entry_iff hashDir hashes allDepsMap _ lf'
        hkeys hok id]
      rw [pruneLockfile_entry rootLock allDepsMap hwfRoot id]
      constructor
      · rintro (hx | hx)
        · by_cases hdep : (hmGet allDepsMap id).isSome
          · rw [if_pos hdep] at hx
            obtain ⟨pd, hpd⟩ := Option.isSome_iff_exists.mp hdep
            have hmem : (id, pd) ∈ allDepsMap := hmGet_some_mem hpd
            by_cases hloc : pd.2.is_local = true
            · rw [hnocollide (id, pd) hmem hloc] at hx
              exact absurd hx (by simp)
            · exact ⟨(id, pd), hmem, rfl, bool_eq_false hloc⟩
          · rw [if_neg hdep] at hx
            exact absurd hx (by simp)
        · exact hx
      · intro hx
        exact Or.inr hx

/-- Witness for the amended C4 theorem: one non-local git dependency and
an empty root lock document; reconciliation inserts exactly that
dependency's entry. -/
theorem c4_reconcile_exact_nonlocal_witness :
    (((⟨0, [("g@t", ⟨"g", "t", "h"⟩)]⟩ : Lockfile).packages_cache.map
        Prod.fst).Nodup) ∧
    ∀ id, ((⟨0, [("g@t", ⟨"g", "t", "h"⟩)]⟩ : Lockfile).entry id).isSome ↔
      ∃ p ∈ [("g@t", ((⟨true, ["c"]⟩ : MPath),
        (⟨"d", some "g", some "t", none, none⟩ : Dependency)))],
        p.1 = id ∧ p.2.2.is_local = false :=
  c4_reconcile_exact_nonlocal (fun _ => some "h")
    [("g@t", (⟨true, ["c"]⟩, ⟨"d", some "g", some "t", none, none⟩))]
    [] ⟨0, []⟩ ⟨0, [("g@t", ⟨"g", "t", "h"⟩)]⟩
    (by decide) (by decide) (by decide) (by decide) (by decide)

/-- C5: when the dependent-lockfile phase passes and some resolved
non-local dependency's root lock entry stores a hash different from the
freshly computed one, the whole reconciliation returns an integrity
error naming a dependency with exactly such a mismatch, and no lockfile
is produced (an `Except.error` result models the abort before
`lockfile.save`, so the document on disk is not updated). -/
theorem c5_root_mismatch_aborts (hashDir : MPath → Option String)
    (allDepsMap : List (String × (MPath × Dependency)))
    (allLockfiles : List (String × Lockfile)) (rootLock : Lockfile)
    (hashes : List (String × String))
    (hkeys : ∀ p ∈ allDepsMap, p.2.2.identifier = .ok p.1)
    (hnd : (allDepsMap.map Prod.fst).Nodup)
    (hwfRoot : ∀ q ∈ rootLock.packages_cache, q.1 = q.2.identifier)
    (habs : ∀ p ∈ allDepsMap, p.2.2.is_local = false →
      p.2.1.is_absolute = true)
    (hch : computeHashes hashDir (allDepsMap.map Prod.snd) = .ok hashes)
    (hck : checkDepLockfiles hashes allDepsMap allLockfiles = .ok ())
    (hmm : ∃ p ∈ allDepsMap, ∃ entry h, p.2.2.is_local = false ∧
      (pruneLockfile rootLock allDepsMap).entry p.1 = some entry ∧
      hmGet hashes p.1 = some h ∧ h ≠ entry.blake3) :
    ∃ p ∈ allDepsMap, ∃ entry h, p.2.2.is_local = false ∧
      (pruneLockfile rootLock allDepsMap).entry p.1 = some entry ∧
      hmGet hashes p.1 = some h ∧ h ≠ entry.blake3 ∧
      installTail hashDir allDepsMap allLockfiles rootLock =
        .error (.rootLockfileMismatch p.2.2.name) := by
  have hins : installTail hashDir allDepsMap allLockfiles rootLock =
      verifyOrInsert hashDir hashes (allDepsMap.map Prod.snd)
        (pruneLockfile rootLock allDepsMap) := by
    unfold installTail
    simp only [hch, hck]
  have hwfP := pruneLockfile_wf rootLock allDepsMap hwfRoot
  cases hres : verifyOrInsert hashDir hashes (allDepsMap.map Prod.snd)
      (pruneLockfile rootLock allDepsMap) with
  | ok lf' =>
    obtain ⟨p, hp, entry, h, c1, c2, c3, c4⟩ := hmm
    have hm := verifyOrInsert_ok_matched hashDir hashes allDepsMap _ lf'
      hkeys hnd hres p hp c1 entry c2
    have hident : entry.identifier = p.1 :=
      (hwfP (p.1, entry) (hmGet_some_mem c2)).symm
    rw [hident, c3] at hm
    exact absurd (by simpa using hm : h = entry.blake3) c4
  | error e =>
    have hcover := computeHashes_cover hashDir allDepsMap hashes hkeys hch
    have hhash := computeHashes_hashDir hashDir _ hashes hch
    obtain ⟨p, hp, entry, h, c1, c2, c3, c4, c5⟩ :=
      verifyOrInsert_error_form hashDir hashes allDepsMap _ e hkeys hnd
        hwfP habs
        (fun p hp => hhash p.2 (List.mem_map.mpr ⟨p, hp, rfl⟩))
        hcover hres
    exact ⟨p, hp, entry, h, c1, c2, c3, c4, by rw [hins, hres, c5]⟩

/-- Witness for C5 at a concrete mismatching input: one git dependency
whose lock entry stores `"old"` while the fresh hash is `"new"`. -/
theorem c5_root_mismatch_aborts_witness :
    ∃ p ∈ [("g@t", ((⟨true, ["c"]⟩ : MPath),
        (⟨"dp", some "g", some "t", none, none⟩ : Dependency)))],
      ∃ entry h, p.2.2.is_local = false ∧
      (pruneLockfile ⟨0, [("g@t", ⟨"g", "t", "old"⟩)]⟩
        [("g@t", (⟨true, ["c"]⟩,
          ⟨"dp", some "g", some "t", none, none⟩))]).entry p.1
        = some entry ∧
      hmGet [("g@t", "new")] p.1 = some h ∧ h ≠ entry.blake3 ∧
      installTail (fun _ => some "new")
        [("g@t", (⟨true, ["c"]⟩, ⟨"dp", some "g", some "t", none, none⟩))]
        [] ⟨0, [("g@t", ⟨"g", "t", "old"⟩)]⟩ =
        .error (.rootLockfileMismatch p.2.2.name) :=
  c5_root_mismatch_aborts (fun _ => some "new")
    [("g@t", (⟨true, ["c"]⟩, ⟨"dp", some "g", some "t", none, none⟩))]
    [] ⟨0, [("g@t", ⟨"g", "t", "old"⟩)]⟩ [("g@t", "new")]
    (by decide) (by decide) (by decide) (by decide) (by decide) rfl
    ⟨("g@t", (⟨true, ["c"]⟩, ⟨"dp", some "g", some "t", none, none⟩)),
      by decide, ⟨"g", "t", "old"⟩, "new", by decide, by decide, by decide,
      by decide⟩

/-- C6 counterexample: dependency `A`'s lock document records a stale
hash for dependency `B`.  The resulting error is
`depLockfileMismatch "B"`, which carries only the name of the inner
dependency that drifted; the claim requires it to also name `A`, the
dependency whose lock document is being checked, but the loop discards
that identifier (`for (_identifier, lockfile) in all_lockfiles`). -/
theorem c6_names_only_inner_counterexample :
    installTail
        (fun p => if p = ⟨true, ["pa"]⟩ then some "ha" else some "hb")
        [("a@t", (⟨true, ["pa"]⟩, ⟨"A", some "a", some "t", none, none⟩)),
         ("b@t", (⟨true, ["pb"]⟩, ⟨"B", some "b", some "t", none, none⟩))]
        [("a@t", ⟨0, [("b@t", ⟨"b", "t", "stale"⟩)]⟩)] ⟨0, []⟩ =
      .error (.depLockfileMismatch "B")
    ∧ "B" ≠ "A" := by
  constructor
  · rfl
  · decide

/-- C6 (amended): when a resolved dependency's own lock document records,
for some Identifier, a hash different from the freshly computed one, the
reconciliation aborts with an integrity error that names the inner
dependency that drifted (the one the stale entry points at) — and only
it: the owning dependency's identifier is discarded by the loop, so the
error does not name the dependency whose lock document was being
checked. -/
theorem c6_dep_lock_mismatch_names_inner (hashDir : MPath → Option String)
    (allDepsMap : List (String × (MPath × Dependency)))
    (allLockfiles : List (String × Lockfile)) (rootLock : Lockfile)
    (hashes : List (String × String))
    (hch : computeHashes hashDir (allDepsMap.map Prod.snd) = .ok hashes)
    (hcH : ∀ il ∈ allLockfiles, ∀ en ∈ il.2.entries,
      (hmGet hashes en.identifier).isSome)
    (hcD : ∀ il ∈ allLockfiles, ∀ en ∈ il.2.entries,
      (hmGet allDepsMap en.identifier).isSome)
    (hmm : ∃ il ∈ allLockfiles, ∃ en ∈ il.2.entries, ∃ h,
      hmGet hashes en.identifier = some h ∧ h ≠ en.blake3) :
    ∃ (en : LockEntry) (pd : MPath × Dependency) (h : String),
      hmGet allDepsMap en.identifier = some pd ∧
      hmGet hashes en.identifier = some h ∧ h ≠ en.blake3 ∧
      installTail hashDir allDepsMap allLockfiles rootLock =
        .error (.depLockfileMismatch pd.2.name) := by
  cases hck : checkDepLockfiles hashes allDepsMap allLockfiles with
  | ok u =>
    cases u
    obtain ⟨il, hil, en, hen, h, hh, hne⟩ := hmm
    have hmtch := checkDepLockfiles_ok hashes allDepsMap allLockfiles hck
      il hil en hen
    rw [hh] at hmtch
    exact absurd (by simpa using hmtch : h = en.blake3) hne
  | error e =>
    obtain ⟨il, hil, en, hen, pd, h, c1, c2, c3, c4⟩ :=
      checkDepLockfiles_error hashes allDepsMap allLockfiles e hcH hcD hck
    refine ⟨en, pd, h, c1, c2, c3, ?_⟩
    unfold installTail
    simp only [hch, hck, c4]

/-- Witness for the amended C6 theorem at the two-dependency input of the
counterexample. -/
theorem c6_dep_lock_mismatch_names_inner_witness :
    ∃ (en : LockEntry) (pd : MPath × Dependency) (h : String),
      hmGet [("a@t", ((⟨true, ["pa"]⟩ : MPath),
          (⟨"A", some "a", some "t", none, none⟩ : Dependency))),
        ("b@t", (⟨true, ["pb"]⟩, ⟨"B", some "b", some "t", none, none⟩))]
        en.identifier = some pd ∧
      hmGet [("a@t", "ha"), ("b@t", "hb")] en.identifier = some h ∧
      h ≠ en.blake3 ∧
      installTail
        (fun p => if p = ⟨true, ["pa"]⟩ then some "ha" else some "hb")
        [("a@t", (⟨true, ["pa"]⟩, ⟨"A", some "a", some "t", none, none⟩)),
         ("b@t", (⟨true, ["pb"]⟩, ⟨"B", some "b", some "t", none, none⟩))]
        [("a@t", ⟨0, [("b@t", ⟨"b", "t", "stale"⟩)]⟩)] ⟨0, []⟩ =
        .error (.depLockfileMismatch pd.2.name) :=
  c6_dep_lock_mismatch_names_inner
    (fun p => if p = ⟨true, ["pa"]⟩ then some "ha" else some "hb")
    [("a@t", (⟨true, ["pa"]⟩, ⟨"A", some "a", some "t", none, none⟩)),
     ("b@t", (⟨true, ["pb"]⟩, ⟨"B", some "b", some "t", none, none⟩))]
    [("a@t", ⟨0, [("b@t", ⟨"b", "t", "stale"⟩)]⟩)] ⟨0, []⟩
    [("a@t", "ha"), ("b@t", "hb")] rfl (by decide) (by decide)
    ⟨("a@t", ⟨0, [("b@t", ⟨"b", "t", "stale"⟩)]⟩), by decide,
      ⟨"b", "t", "stale"⟩, by decide, "hb", by decide, by decide⟩

/-- The outcome of `std::process::Command::new("git")...output()`:
`spawnError` when spawning the process fails (the `?` on `output()`
propagates only that), otherwise the child ran and exited with
`exitCode`, leaving `workdirFiles` in the temporary working directory.
The code never reads the exit status or output. -/
inductive CloneOutcome
  | spawnError
  | ran (exitCode : Nat) (workdirFiles : List String)
deriving DecidableEq, Repr

/-- Lines 244-281 of `install` for one VersionControl dependency:
`finalBefore` is the content of the final cache folder path before
(`none` = path absent), and the clone outcome determines the rest.  On a
cache hit nothing happens.  Otherwise, a spawn failure aborts before
`create_dir_all`, leaving the final path absent; in every other case —
the exit status being ignored — `create_dir_all` creates the final path
and `rename` moves the temporary clone directory onto it (allowed because
the just-created target is empty).  Returns (result, final path content
after); `ok` means install proceeds treating the dependency as fetched. -/
def fetchIntoCache (finalBefore : Option (List String))
    (outcome : CloneOutcome) :
    Except String Unit × Option (List String) :=
  match finalBefore with
  | some files => (.ok (), some files)
  | none =>
    match outcome with
    | .spawnError => (.error "failed to spawn git", none)
    | .ran _exitCode workdirFiles => (.ok (), some workdirFiles)

/-- C1 (refuted by the code — code bug): after a failed `git clone`
(non-zero exit code; git cleans the clone target, leaving the temporary
directory empty), the final cache path exists afterwards — an empty
directory — and the materialization even reports success, because the
exit status of `git clone` is never checked and
`create_dir_all` + `rename` run unconditionally.  The claim (and the
code's own comment, "download atomically ... clone into a tmpdir then
move it into place") requires that a fetch failure leave no artifact at
the final cache path. -/
theorem c1_failed_clone_leaves_artifact :
    fetchIntoCache none (.ran 128 []) = (.ok (), some []) ∧
    (fetchIntoCache none (.ran 128 [])).2 ≠ none ∧
    fetchIntoCache none .spawnError =
      (.error "failed to spawn git", none) := by
  refine ⟨rfl, ?_, rfl⟩
  intro h
  simp [fetchIntoCache] at h

/-- `NargoConfig` as consumed by the traversal loop: the package name and
the parsed dependencies table (alias name ↦ `Dependency`, with
`dep.name` set to the alias), in the iteration order of the `HashMap`
that `dependencies()` returns.  A manifest that is unreadable,
unparsable, or whose dependency table fails to parse is modelled as an
absent manifest (every such case aborts the resolve identically). -/
structure NargoConfig where
  name : String
  deps : List (String × Dependency)
deriving DecidableEq, Repr

/-- Environment of external effects for the traversal: manifest loading
and parsing (`none` = failure), `Url::parse` (yielding domain and path,
`none` = parse failure or missing domain), initial cache-folder
existence, git spawn failures by (url, tag), lockfile loading
(`none` = load failure), and the canonicalize + stat + is-dir check of
`valid_or_err` for local dependency paths. -/
structure Env where
  manifests : MPath → Option NargoConfig
  parseUrl : String → Option (String × String)
  cacheExists0 : MPath → Bool
  spawnFails : String → String → Bool
  loadLockfile : MPath → Option Lockfile
  localDirOk : String → Bool

/-- `str::trim_start_matches("/")`: drop leading slashes. -/
def trimLeadingSlashes (s : String) : String :=
  (s.data.dropWhile (fun c => c = '/')).asString

/-- `Dependency::valid_or_err`.  The three canonicalize/stat/is-dir
failures for a local path are collapsed into one error (each aborts the
resolve identically); `env.localDirOk` decides them. -/
def valid_or_err (env : Env) (dep : Dependency) : Except String Unit :=
  if dep.path.isSome && dep.git.isSome then
    .error "path and git may not both be specified for dependence"
  else if dep.path.isSome && dep.tag.isSome then
    .error "path and tag may not both be specified for dependence"
  else if dep.git.isSome && dep.tag.isNone then
    .error "git dependencies must specify a tag"
  else if (match dep.directory with
           | some dir => (MPath.ofString dir).abs
           | none => false) then
    .error "directory must be relative"
  else
    match dep.path with
    | some p =>
      if env.localDirOk p then .ok ()
      else .error "unable to use dependence path"
    | none => .ok ()

/-- `NargoConfig::validate_dependencies`. -/
def validate_dependencies (env : Env) (cfg : NargoConfig) :
    Except String Unit :=
  cfg.deps.foldlM (fun _ nd => valid_or_err env nd.2) ()

/-- `Dependency::folder_path`: the deterministic shared-cache folder for
a git dependency, `<cache>/<domain>/<url-path>/<tag>` with leading
slashes trimmed from each part. -/
def folder_path (env : Env) (dep : Dependency) (cache : MPath) :
    Except String MPath :=
  match dep.git, dep.tag with
  | some git, some tag =>
    match env.parseUrl git with
    | none => .error "git url did not contain a domain"
    | some (domain, urlPath) =>
      .ok (((cache.push (trimLeadingSlashes domain)).push
        (trimLeadingSlashes urlPath)).push (trimLeadingSlashes tag))
  | _, _ => .error "cannot determine folder name for non-git dependence"

/-- The traversal state of `install` (lines 209-291): the resolved map
`all_dependencies`, the map `all_lockfiles`, the worklist
`pending_dependencies` (a stack: push = cons, pop = head), the set of
cache folders created by this run (`fs::rename` targets, so that the
`fs::exists` check sees them), and — as instrumentation for the claims —
the list of identifiers for which a `git clone` fetch was performed. -/
structure St where
  allDeps : List (String × (MPath × Dependency))
  allLockfiles : List (String × Lockfile)
  pending : List MPath
  fetched : List MPath
  fetchLog : List String
deriving DecidableEq, Repr

/-- The body of the per-dependency loop, lines 219-290 of `install`: skip
an already-resolved identifier; a local dependency is resolved to its
module path and pushed; a git dependency's cache folder is derived, its
module path pushed, and the dependency either found in the cache or
fetched (clone into a temp dir, then `create_dir_all` + `rename`; the
exit status of the clone is not inspected).  The lockfile of each newly
resolved dependency is loaded (`load_or_init`).  Error propagation order
within a step differs immaterially from the Rust (any failure aborts the
entire resolve before its partial state is observed). -/
def procDep (env : Env) (cachePath pkgPath : MPath) (st : St)
    (nd : String × Dependency) : Except String St :=
  match nd.2.identifier with
  | .error msg => .error msg
  | .ok identifier =>
    if (hmGet st.allDeps identifier).isSome then .ok st
    else
      match nd.2.path with
      | some depPathStr =>
        let depPath := MPath.ofString depPathStr
        match (if depPath.abs then nd.2.module_path depPath
               else nd.2.module_path (pkgPath.join depPath)) with
        | .error msg => .error msg
        | .ok modulePath =>
          match env.loadLockfile (depPath.push "nrpm.lock") with
          | none => .error "failed to load lockfile"
          | some lfl =>
            .ok { st with
              allDeps := hmInsert st.allDeps identifier (modulePath, nd.2),
              allLockfiles := hmInsert st.allLockfiles identifier lfl,
              pending := modulePath :: st.pending }
      | none =>
        match folder_path env nd.2 cachePath with
        | .error msg => .error msg
        | .ok depRootPath =>
          match nd.2.module_path depRootPath with
          | .error msg => .error msg
          | .ok modulePath =>
            let st1 : St := { st with pending := modulePath :: st.pending }
            if env.cacheExists0 depRootPath ∨ depRootPath ∈ st.fetched then
              match env.loadLockfile (depRootPath.push "nrpm.lock") with
              | none => .error "failed to load lockfile"
              | some lfl =>
                .ok { st1 with
                  allLockfiles := hmInsert st1.allLockfiles identifier lfl,
                  allDeps :=
                    hmInsert st1.allDeps identifier (modulePath, nd.2) }
            else
              match nd.2.git, nd.2.tag with
              | some gitUrl, some tag =>
                if env.spawnFails gitUrl tag then
                  .error "failed to run git"
                else
                  match env.loadLockfile (depRootPath.push "nrpm.lock") with
                  | none => .error "failed to load lockfile"
                  | some lfl =>
                    .ok { st1 with
                      fetched := depRootPath :: st1.fetched,
                      fetchLog := identifier :: st1.fetchLog,
                      allLockfiles :=
                        hmInsert st1.allLockfiles identifier lfl,
                      allDeps :=
                        hmInsert st1.allDeps identifier (modulePath, nd.2) }
              | _, _ => .error "tag should be Some at this point"

/-- The worklist loop of `install` (lines 212-291), with explicit fuel:
`none` means the fuel ran out before the loop finished (never the case
for enough fuel, by the termination theorem); `some` carries the loop's
result.  Each iteration pops a package path, loads and validates its
manifest, and processes each declared dependency. -/
def installLoop (env : Env) (cachePath : MPath) :
    Nat → St → Option (Except String St)
  | 0, _ => none
  | fuel + 1, st =>
    match st.pending with
    | [] => some (.ok st)
    | pkgPath :: rest =>
      match env.manifests pkgPath with
      | none => some (.error "Unable to load Nargo.toml")
      | some cfg =>
        match validate_dependencies env cfg with
        | .error msg => some (.error msg)
        | .ok _ =>
          match cfg.deps.foldlM (procDep env cachePath pkgPath)
              { st with pending := rest } with
          | .error msg => some (.error msg)
          | .ok st2 => installLoop env cachePath fuel st2

/-- Initial traversal state: only the root package path pending. -/
def initSt (root : MPath) : St :=
  ⟨[], [], [root], [], []⟩

/-- A concrete diamond-shaped dependency graph: the root declares git
dependencies `a` and `b`, and `a`'s package declares `b` again under a
different alias. -/
def diamondEnv : Env where
  manifests := fun p =>
    if p = ⟨true, ["root"]⟩ then
      some ⟨"r", [("a", ⟨"a", some "ga", some "t", none, none⟩),
                  ("b", ⟨"b", some "gb", some "t", none, none⟩)]⟩
    else if p = ⟨true, ["cache", "da", "pa", "t"]⟩ then
      some ⟨"A", [("b2", ⟨"b2", some "gb", some "t", none, none⟩)]⟩
    else if p = ⟨true, ["cache", "db", "pb", "t"]⟩ then
      some ⟨"B", []⟩
    else none
  parseUrl := fun u =>
    if u = "ga" then some ("da", "pa")
    else if u = "gb" then some ("db", "pb")
    else none
  cacheExists0 := fun _ => false
  spawnFails := fun _ _ => false
  loadLockfile := fun _ => some Lockfile.new
  localDirOk := fun _ => true

example : installLoop diamondEnv ⟨true, ["cache"]⟩ 10
    (initSt ⟨true, ["root"]⟩) =
  some (.ok ⟨[("ga@t", (⟨true, ["cache", "da", "pa", "t"]⟩,
                ⟨"a", some "ga", some "t", none, none⟩)),
              ("gb@t", (⟨true, ["cache", "db", "pb", "t"]⟩,
                ⟨"b", some "gb", some "t", none, none⟩))],
             [("ga@t", Lockfile.new), ("gb@t", Lockfile.new)],
             [],
             [⟨true, ["cache", "db", "pb", "t"]⟩,
              ⟨true, ["cache", "da", "pa", "t"]⟩],
             ["gb@t", "ga@t"]⟩) := by rfl

/-- The keys of the resolved-dependency map. -/
def keysOf (st : St) : List String :=
  st.allDeps.map Prod.fst

/-- Invariant of the traversal state: resolved identifiers are unique,
fetched identifiers are unique, and every fetched identifier has been
resolved. -/
def StInv (st : St) : Prop :=
  (keysOf st).Nodup ∧ st.fetchLog.Nodup ∧
    ∀ id ∈ st.fetchLog, (hmGet st.allDeps id).isSome

theorem procDep_skip (env : Env) (cachePath pkgPath : MPath) (st : St)
    (nd : String × Dependency) (ident : String)
    (hid : nd.2.identifier = .ok ident)
    (hmem : (hmGet st.allDeps ident).isSome) :
    procDep env cachePath pkgPath st nd = .ok st := by
  unfold procDep
  simp only [hid]
  rw [if_pos hmem]

theorem procDep_ok_inv {env : Env} {cachePath pkgPath : MPath} {st st' : St}
    {nd : String × Dependency}
    (hok : procDep env cachePath pkgPath st nd = .ok st') :
    st' = st ∨
    ∃ ident mp, nd.2.identifier = .ok ident ∧
      ¬ (hmGet st.allDeps ident).isSome ∧
      st'.allDeps = hmInsert st.allDeps ident mp ∧
      st'.pending = mp.1 :: st.pending ∧
      (st'.fetchLog = st.fetchLog ∨ st'.fetchLog = ident :: st.fetchLog) := by
  unfold procDep at hok
  cases hid : nd.2.identifier with
  | error msg =>
    simp only [hid] at hok
    exact absurd hok (by simp)
  | ok ident =>
    simp only [hid] at hok
    by_cases hmem : (hmGet st.allDeps ident).isSome
    · rw [if_pos hmem] at hok
      exact Or.inl (by simpa using hok.symm)
    · rw [if_neg hmem] at hok
      cases hpath : nd.2.path with
      | some depPathStr =>
        simp only [hpath] at hok
        cases hmp : (if (MPath.ofString depPathStr).abs then
            nd.2.module_path (MPath.ofString depPathStr)
          else nd.2.module_path (pkgPath.join (MPath.ofString depPathStr)))
          with
        | error msg => rw [hmp] at hok; exact absurd hok (by simp)
        | ok modulePath =>
          rw [hmp] at hok
          cases hll : env.loadLockfile
              ((MPath.ofString depPathStr).push "nrpm.lock") with
          | none =>
            simp only [hll] at hok
            exact absurd hok (by simp)
          | some lfl =>
            simp only [hll] at hok
            obtain rfl : st' = { st with
                allDeps := hmInsert st.allDeps ident (modulePath, nd.2),
                allLockfiles := hmInsert st.allLockfiles ident lfl,
                pending := modulePath :: st.pending } := by
              simpa using hok.symm
            exact Or.inr ⟨ident, (modulePath, nd.2), rfl, hmem, rfl, rfl,
              Or.inl rfl⟩
      | none =>
        simp only [hpath] at hok
        cases hfp : folder_path env nd.2 cachePath with
        | error msg =>
          simp only [hfp] at hok
          exact absurd hok (by simp)
        | ok depRootPath =>
          simp only [hfp] at hok
          cases hmp : nd.2.module_path depRootPath with
          | error msg =>
            simp only [hmp] at hok
            exact absurd hok (by simp)
          | ok modulePath =>
            simp only [hmp] at hok
            by_cases hex : env.cacheExists0 depRootPath = true ∨
                depRootPath ∈ st.fetched
            · rw [if_pos hex] at hok
              cases hll : env.loadLockfile (depRootPath.push "nrpm.lock")
                with
              | none =>
                simp only [hll] at hok
                exact absurd hok (by simp)
              | some lfl =>
                simp only [hll] at hok
                obtain rfl : st' = { st with
                    pending := modulePath :: st.pending,
                    allLockfiles := hmInsert st.allLockfiles ident lfl,
                    allDeps :=
                      hmInsert st.allDeps ident (modulePath, nd.2) } := by
                  simpa using hok.symm
                exact Or.inr ⟨ident, (modulePath, nd.2), rfl, hmem, rfl,
                  rfl, Or.inl rfl⟩
            · rw [if_neg hex] at hok
              cases hg : nd.2.git with
              | none =>
                simp only [hg] at hok
                exact absurd hok (by simp)
              | some gitUrl =>
                simp only [hg] at hok
                cases ht : nd.2.tag with
                | none =>
                  simp only [ht] at hok
                  exact absurd hok (by simp)
                | some tag =>
                  simp only [ht] at hok
                  by_cases hsp : env.spawnFails gitUrl tag = true
                  · rw [if_pos hsp] at hok
                    exact absurd hok (by simp)
                  · rw [if_neg hsp] at hok
                    cases hll : env.loadLockfile
                        (depRootPath.push "nrpm.lock") with
                    | none =>
                      simp only [hll] at hok
                      exact absurd hok (by simp)
                    | some lfl =>
                      simp only [hll] at hok
                      obtain rfl : st' = { st with
                          pending := modulePath :: st.pending,
                          fetched := depRootPath :: st.fetched,
                          fetchLog := ident :: st.fetchLog,
                          allLockfiles :=
                            hmInsert st.allLockfiles ident lfl,
                          allDeps :=
                            hmInsert st.allDeps ident (modulePath, nd.2) }
                          := by
                        simpa using hok.symm
                      exact Or.inr ⟨ident, (modulePath, nd.2), rfl, hmem,
                        rfl, rfl, Or.inr rfl⟩

theorem procDep_inv {env : Env} {cachePath pkgPath : MPath} {st st' : St}
    {nd : String × Dependency}
    (hok : procDep env cachePath pkgPath st nd = .ok st')
    (hinv : StInv st) :
    StInv st' ∧
    ∀ id, (hmGet st.allDeps id).isSome → (hmGet st'.allDeps id).isSome := by
  obtain ⟨hnd, hlognd, hcov⟩ := hinv
  rcases procDep_ok_inv hok with h | ⟨ident, mp, hid, hfresh, hdeps, hpend,
    hlog⟩
  · subst h
    exact ⟨⟨hnd, hlognd, hcov⟩, fun id h => h⟩
  · have hmono : ∀ id, (hmGet st.allDeps id).isSome →
        (hmGet st'.allDeps id).isSome := by
      intro id h
      rw [hdeps, hmGet_hmInsert]
      by_cases hik : id = ident
      · rw [if_pos hik]; rfl
      · rw [if_neg hik]; exact h
    have hself : (hmGet st'.allDeps ident).isSome := by
      rw [hdeps, hmGet_hmInsert, if_pos rfl]; rfl
    refine ⟨⟨?_, ?_, ?_⟩, hmono⟩
    · rw [show keysOf st' = (hmInsert st.allDeps ident mp).map Prod.fst
        from by rw [keysOf, hdeps]]
      exact hmInsert_nodup _ _ _ hnd
    · rcases hlog with h | h
      · rw [h]; exact hlognd
      · rw [h]
        refine List.nodup_cons.mpr ⟨fun hmem => ?_, hlognd⟩
        exact hfresh (hcov ident hmem)
    · intro id hmem
      rcases hlog with h | h
      · exact hmono id (hcov id (h ▸ hmem))
      · rw [h] at hmem
        rcases List.mem_cons.mp hmem with hik | hik
        · exact hik ▸ hself
        · exact hmono id (hcov id hik)

theorem procFold_cons (env : Env) (cachePath pkgPath : MPath)
    (nd : String × Dependency) (l : List (String × Dependency)) (st : St) :
    (nd :: l).foldlM (procDep env cachePath pkgPath) st =
      match procDep env cachePath pkgPath st nd with
      | .error e => .error e
      | .ok st1 => l.foldlM (procDep env cachePath pkgPath) st1 := by
  simp only [List.foldlM]
  cases procDep env cachePath pkgPath st nd with
  | error e => rfl
  | ok st1 => rfl

theorem foldProcDep_inv {env : Env} {cachePath pkgPath : MPath}
    {deps : List (String × Dependency)} {st st' : St}
    (hok : deps.foldlM (procDep env cachePath pkgPath) st = .ok st')
    (hinv : StInv st) : StInv st' := by
  induction deps generalizing st with
  | nil =>
    have : st' = st := by
      simpa [List.foldlM, pure, Except.pure] using hok.symm
    exact this ▸ hinv
  | cons nd rest ih =>
    rw [procFold_cons] at hok
    cases hp : procDep env cachePath pkgPath st nd with
    | error e =>
      simp only [hp] at hok
      exact absurd hok (by simp)
    | ok st1 =>
      simp only [hp] at hok
      exact ih hok (procDep_inv hp hinv).1

theorem installLoop_inv (env : Env) (cachePath : MPath) :
    ∀ fuel (st st' : St),
      installLoop env cachePath fuel st = some (.ok st') →
      StInv st → StInv st' := by
  intro fuel
  induction fuel with
  | zero => intro st st' h; exact absurd h (by simp [installLoop])
  | succ fuel ih =>
    intro st st' h hinv
    cases hp : st.pending with
    | nil =>
      simp only [installLoop, hp] at h
      have : st' = st := by simpa using h.symm
      exact this ▸ hinv
    | cons pkgPath rest =>
      simp only [installLoop, hp] at h
      cases hm : env.manifests pkgPath with
      | none =>
        simp only [hm] at h
        exact absurd h (by simp)
      | some cfg =>
        simp only [hm] at h
        cases hv : validate_dependencies env cfg with
        | error msg =>
          simp only [hv] at h
          exact absurd h (by simp)
        | ok u =>
          cases u
          simp only [hv] at h
          cases hf : cfg.deps.foldlM (procDep env cachePath pkgPath)
              { st with pending := rest } with
          | error msg =>
            simp only [hf] at h
            exact absurd h (by simp)
          | ok st2 =>
            simp only [hf] at h
            have hinv2 : StInv { st with pending := rest } := hinv
            exact ih st2 st' h (foldProcDep_inv hf hinv2)

/-- C3: during a single resolve, every declaration whose Identifier is
already resolved is skipped entirely (`procDep` returns the state
unchanged), and any completed traversal starting from the initial state
has pairwise-distinct resolved Identifiers and pairwise-distinct fetched
Identifiers, every fetched Identifier being resolved — so a
diamond-shaped graph yields exactly one Resolved Node and at most one
fetch per Identifier. -/
theorem c3_dedup_once_per_identifier (env : Env) (cachePath root : MPath) :
    (∀ (pkgPath : MPath) (st : St) (nd : String × Dependency)
      (ident : String), nd.2.identifier = .ok ident →
      (hmGet st.allDeps ident).isSome →
      procDep env cachePath pkgPath st nd = .ok st)
    ∧ (∀ (fuel : Nat) (st' : St),
        installLoop env cachePath fuel (initSt root) = some (.ok st') →
        (st'.allDeps.map Prod.fst).Nodup ∧ st'.fetchLog.Nodup ∧
          ∀ id ∈ st'.fetchLog, (hmGet st'.allDeps id).isSome) := by
  constructor
  · intro pkgPath st nd ident hid hmem
    exact procDep_skip env cachePath pkgPath st nd ident hid hmem
  · intro fuel st' h
    exact installLoop_inv env cachePath fuel (initSt root) st' h
      ⟨List.nodup_nil, List.nodup_nil,
        fun id hmem => absurd hmem (List.not_mem_nil id)⟩

/-- Witness for C3 on the concrete diamond graph: the second declaration
of `gb@t` is skipped, and the completed run resolves each of `ga@t`,
`gb@t` exactly once and fetches each exactly once. -/
theorem c3_dedup_once_per_identifier_witness :
    (procDep diamondEnv ⟨true, ["cache"]⟩ ⟨true, ["cache", "da", "pa", "t"]⟩
        ⟨[("gb@t", (⟨true, ["x"]⟩, ⟨"b", some "gb", some "t", none, none⟩))],
          [], [], [], []⟩
        ("b2", ⟨"b2", some "gb", some "t", none, none⟩) =
      .ok ⟨[("gb@t", (⟨true, ["x"]⟩,
          ⟨"b", some "gb", some "t", none, none⟩))], [], [], [], []⟩)
    ∧ ((["ga@t", "gb@t"] : List String).Nodup ∧
        (["gb@t", "ga@t"] : List String).Nodup ∧
        ∀ id ∈ (["gb@t", "ga@t"] : List String),
          (hmGet [("ga@t", ((⟨true, ["cache", "da", "pa", "t"]⟩ : MPath),
              (⟨"a", some "ga", some "t", none, none⟩ : Dependency))),
            ("gb@t", (⟨true, ["cache", "db", "pb", "t"]⟩,
              ⟨"b", some "gb", some "t", none, none⟩))] id).isSome) :=
  ⟨(c3_dedup_once_per_identifier diamondEnv ⟨true, ["cache"]⟩
      ⟨true, ["root"]⟩).1 ⟨true, ["cache", "da", "pa", "t"]⟩
      ⟨[("gb@t", (⟨true, ["x"]⟩, ⟨"b", some "gb", some "t", none, none⟩))],
        [], [], [], []⟩
      ("b2", ⟨"b2", some "gb", some "t", none, none⟩) "gb@t" rfl rfl,
   (c3_dedup_once_per_identifier diamondEnv ⟨true, ["cache"]⟩
      ⟨true, ["root"]⟩).2 10
      ⟨[("ga@t", (⟨true, ["cache", "da", "pa", "t"]⟩,
          ⟨"a", some "ga", some "t", none, none⟩)),
        ("gb@t", (⟨true, ["cache", "db", "pb", "t"]⟩,
          ⟨"b", some "gb", some "t", none, none⟩))],
        [("ga@t", Lockfile.new), ("gb@t", Lockfile.new)], [],
        [⟨true, ["cache", "db", "pb", "t"]⟩,
          ⟨true, ["cache", "da", "pa", "t"]⟩],
        ["gb@t", "ga@t"]⟩ rfl⟩

theorem nodup_subset_length {l l' : List String} (hnd : l.Nodup)
    (hsub : l ⊆ l') : l.length ≤ l'.length := by
  calc l.length = l.toFinset.card := (List.toFinset_card_of_nodup hnd).symm
    _ ≤ l'.toFinset.card := Finset.card_le_card
        (fun x hx => List.mem_toFinset.mpr (hsub (List.mem_toFinset.mp hx)))
    _ ≤ l'.length := l'.toFinset_card_le

theorem procDep_meas {env : Env} {cachePath pkgPath : MPath} {st st' : St}
    {nd : String × Dependency} (S : List String)
    (hok : procDep env cachePath pkgPath st nd = .ok st')
    (hcovd : ∀ i, nd.2.identifier = .ok i → i ∈ S)
    (hnd : (keysOf st).Nodup) (hsub : keysOf st ⊆ S.dedup) :
    (keysOf st').Nodup ∧ keysOf st' ⊆ S.dedup ∧
    st'.pending.length + (S.dedup.length - (keysOf st').length) =
      st.pending.length + (S.dedup.length - (keysOf st).length) := by
  rcases procDep_ok_inv hok with h | ⟨ident, mp, hid, hfresh, hdeps, hpend,
    hlog⟩
  · subst h
    exact ⟨hnd, hsub, rfl⟩
  · have hnotmem : ident ∉ keysOf st := by
      intro hmem
      exact hfresh ((hmGet_keys_isSome st.allDeps ident).mpr hmem)
    have hkeys' : keysOf st' = keysOf st ++ [ident] := by
      rw [keysOf, hdeps, hmInsert_append st.allDeps ident mp hnotmem]
      simp [keysOf]
    have hmemS : ident ∈ S.dedup :=
      List.mem_dedup.mpr (hcovd ident hid)
    have hsub' : keysOf st' ⊆ S.dedup := by
      rw [hkeys']
      intro x hx
      rcases List.mem_append.mp hx with hx | hx
      · exact hsub hx
      · rw [List.mem_singleton.mp hx]
        exact hmemS
    have hnd' : (keysOf st').Nodup := by
      rw [hkeys']
      exact List.nodup_append.mpr ⟨hnd, List.nodup_singleton _,
        fun a ha hb => hnotmem (by
          rwa [List.mem_singleton.mp hb] at ha)⟩
    refine ⟨hnd', hsub', ?_⟩
    have hlen' : (keysOf st').length = (keysOf st).length + 1 := by
      rw [hkeys']
      simp
    have hle : (keysOf st').length ≤ S.dedup.length :=
      nodup_subset_length hnd' hsub'
    rw [hpend, hlen']
    simp only [List.length_cons]
    omega

theorem foldProcDep_meas {env : Env} {cachePath pkgPath : MPath}
    {deps : List (String × Dependency)} {st st' : St} (S : List String)
    (hok : deps.foldlM (procDep env cachePath pkgPath) st = .ok st')
    (hcov : ∀ nd ∈ deps, ∀ i, nd.2.identifier = .ok i → i ∈ S)
    (hnd : (keysOf st).Nodup) (hsub : keysOf st ⊆ S.dedup) :
    (keysOf st').Nodup ∧ keysOf st' ⊆ S.dedup ∧
    st'.pending.length + (S.dedup.length - (keysOf st').length) =
      st.pending.length + (S.dedup.length - (keysOf st).length) := by
  induction deps generalizing st with
  | nil =>
    have : st' = st := by
      simpa [List.foldlM, pure, Except.pure] using hok.symm
    subst this
    exact ⟨hnd, hsub, rfl⟩
  | cons nd rest ih =>
    rw [procFold_cons] at hok
    cases hp : procDep env cachePath pkgPath st nd with
    | error e =>
      simp only [hp] at hok
      exact absurd hok (by simp)
    | ok st1 =>
      simp only [hp] at hok
      obtain ⟨hnd1, hsub1, heq1⟩ := procDep_meas S hp
        (fun i hi => hcov nd (List.mem_cons_self _ _) i hi) hnd hsub
      obtain ⟨hnd2, hsub2, heq2⟩ := ih hok
        (fun q hq => hcov q (List.mem_cons_of_mem _ hq)) hnd1 hsub1
      exact ⟨hnd2, hsub2, heq2.trans heq1⟩

theorem installLoop_total (env : Env) (cachePath : MPath) (S : List String)
    (hcov : ∀ p cfg, env.manifests p = some cfg →
      ∀ nd ∈ cfg.deps, ∀ i, nd.2.identifier = .ok i → i ∈ S) :
    ∀ fuel (st : St), (keysOf st).Nodup → keysOf st ⊆ S.dedup →
      st.pending.length + (S.dedup.length - (keysOf st).length) < fuel →
      installLoop env cachePath fuel st ≠ none := by
  intro fuel
  induction fuel with
  | zero =>
    intro st _ _ hm
    exact absurd hm (Nat.not_lt_zero _)
  | succ fuel ih =>
    intro st hnd hsub hm
    cases hp : st.pending with
    | nil => simp [installLoop, hp]
    | cons pkgPath rest =>
      simp only [installLoop, hp]
      cases hmf : env.manifests pkgPath with
      | none => simp
      | some cfg =>
        simp only
        cases hv : validate_dependencies env cfg with
        | error msg => simp
        | ok u =>
          cases u
          simp only
          cases hf : cfg.deps.foldlM (procDep env cachePath pkgPath)
              { st with pending := rest } with
          | error msg => simp
          | ok st2 =>
            simp only
            obtain ⟨hnd2, hsub2, heq2⟩ := foldProcDep_meas S hf
              (fun nd hnd i hi => hcov pkgPath cfg hmf nd hnd i hi)
              hnd hsub
            refine ih st2 hnd2 hsub2 ?_
            rw [hp] at hm
            simp only [List.length_cons] at hm
            have : st2.pending.length +
                (S.dedup.length - (keysOf st2).length) =
                rest.length + (S.dedup.length - (keysOf st).length) := heq2
            omega

/-- C9: the worklist traversal terminates on every finite dependency
graph: when a finite set `S` covers every Identifier declared by any
manifest the environment can produce, the loop finishes (result not
`none`) within `1 + |S.dedup|` iterations — a new package directory is
pushed only together with the recording of a previously-unseen
Identifier (plus the single root push), and recorded Identifiers are
never repeated. -/
theorem c9_traversal_terminates (env : Env) (cachePath root : MPath)
    (S : List String)
    (hcov : ∀ p cfg, env.manifests p = some cfg →
      ∀ nd ∈ cfg.deps, ∀ i, nd.2.identifier = .ok i → i ∈ S)
    (fuel : Nat) (hfuel : 1 + S.dedup.length < fuel) :
    installLoop env cachePath fuel (initSt root) ≠ none := by
  refine installLoop_total env cachePath S hcov fuel (initSt root) ?_ ?_ ?_
  · simp [initSt, keysOf]
  · simp [initSt, keysOf]
  · simpa [initSt, keysOf] using hfuel

/-- Environment with a single root manifest declaring no dependencies. -/
def rootOnlyEnv : Env where
  manifests := fun p =>
    if p = ⟨true, ["root"]⟩ then some ⟨"r", []⟩ else none
  parseUrl := fun _ => none
  cacheExists0 := fun _ => false
  spawnFails := fun _ _ => false
  loadLockfile := fun _ => some Lockfile.new
  localDirOk := fun _ => true

/-- Witness for C9: with no declared dependencies (`S = []`), fuel 2
suffices and the loop finishes. -/
theorem c9_traversal_terminates_witness :
    installLoop rootOnlyEnv ⟨true, ["cache"]⟩ 2
      (initSt ⟨true, ["root"]⟩) ≠ none :=
  c9_traversal_terminates rootOnlyEnv ⟨true, ["cache"]⟩ ⟨true, ["root"]⟩
    []
    (by
      intro p cfg hm nd hnd i hi
      simp only [rootOnlyEnv] at hm
      by_cases h1 : p = ⟨true, ["root"]⟩
      · rw [if_pos h1] at hm
        have : cfg = ⟨"r", []⟩ := by simpa using hm.symm
        subst this
        exact absurd hnd (List.not_mem_nil nd)
      · rw [if_neg h1] at hm
        exact absurd hm (by simp))
    2 (by decide)

end Nrpm

namespace Nrpm

example : validUtf8 [0x61, 0x62] = true := by decide
example : validUtf8 [0xFF] = false := by decide
example : validUtf8 [0xC3, 0xA9] = true := by decide
example : validUtf8 [0xC3] = false := by decide
example : validUtf8 [0xED, 0xA0, 0x80] = false := by decide
example : validUtf8 [0xE2, 0x82, 0xAC] = true := by decide
example : validUtf8 [0xF0, 0x9F, 0x98, 0x80] = true := by decide

example :
    hashTarball [⟨.regular, [.normal [48]], [49]⟩] = .ok [[48, 49]] := by
  decide

example :
    hashTarball [⟨.regular, [.normal [48]], [49]⟩,
                 ⟨.regular, [.normal [48]], [50]⟩] = .ok [[48, 50]] := by
  decide

example :
    hashTarball [⟨.regular, [.normal [49]], [0]⟩,
                 ⟨.regular, [.normal [48]], [0]⟩] =
      .ok [[48, 0], [49, 0]] := by
  decide

example :
    hashTarball [⟨.other, [.normal [48]], []⟩] =
      .error "Irregular entry detected in tar archive. Only directories and files are allowed in package tarballs!" := by
  decide

end Nrpm
